import Mathlib

/-! # fast-ngrams-map: a verification development

Shallow embedding of `src/src/fastmap.go` (the tiered n-gram map),
`src/src/default_map.go` (the baseline map), `src/src/utils/ngrams.go` (n-gram
extraction and ranking) and `src/fastmap.go` (the map of package `main`),
followed by theorems about `Put`, `Get`, `Has`, `Len` and the n-gram functions.

Conventions of the embedding.

* A Go `string` is its sequence of bytes: `Key := List Byte`, `Byte := Fin 256`.
* A Go slice is an `Array`; reading or writing an index that is out of range
  is a run-time panic, modelled by `none`.
* A Go built-in `map[K]T` is an association list (`GoMap`): a store replaces
  the entry of a key already present and adds an entry otherwise, `len` is the
  number of entries.
* `uint16` / `uint32` arithmetic is arithmetic on `Nat` reduced `% 2^16` /
  `% 2^32` after every operation that can leave the range.
* A method with a pointer receiver that mutates the map becomes a function
  from the old state to `Option` of the new state.
-/

namespace FastNgrams

/-! ## Go primitives -/

/-- One byte of a Go string. -/
abbrev Byte := Fin 256

/-- Go strings, as byte sequences (`len` is `List.length`). -/
abbrev Key := List Byte

/-- Conversion to `uint16` (wrap-around). -/
def u16 (x : Nat) : Nat := x % 2 ^ 16

/-- Conversion to `uint32` (wrap-around). -/
def u32 (x : Nat) : Nat := x % 2 ^ 32

/-- Slice read `xs[i]`; `none` is the index-out-of-range panic. -/
def readIndex {T : Type} (xs : Array T) (i : Nat) : Option T := xs[i]?

/-- Slice write `xs[i] = v`; `none` is the index-out-of-range panic. -/
def writeIndex {T : Type} (xs : Array T) (i : Nat) (v : T) : Option (Array T) :=
  if h : i < xs.size then some (xs.set ⟨i, h⟩ v) else none

/-- Slice built by `make([]T, n)`: `n` zero values. -/
def makeSlice {T : Type} [Inhabited T] (n : Nat) : Array T := mkArray n default

/-- Slice built by `make([]E, n)` for an `int` `n`: a negative `n` panics. -/
def makeSliceInt {E : Type} [Inhabited E] (n : Int) : Option (Array E) :=
  if 0 ≤ n then some (mkArray n.toNat default) else none

/-- Go built-in map `map[K]T`, as a list of entries. -/
abbrev GoMap (K T : Type) := List (K × T)

namespace GoMap

/-- The map built by `make(map[K]T)` or `make(map[K]T, hint)`. -/
def empty {K T : Type} : GoMap K T := []

/-- Entry of key `k`, when there is one. -/
def lookup {K T : Type} [DecidableEq K] : GoMap K T → K → Option T
  | [], _ => none
  | (k', v) :: rest, k => if k = k' then some v else lookup rest k

/-- Two-result index expression `v, ok := m[k]`: the zero value and `false`
when the key is absent. -/
def index {K T : Type} [DecidableEq K] [Inhabited T] (m : GoMap K T) (k : K) : T × Bool :=
  match lookup m k with
  | some v => (v, true)
  | none => (default, false)

/-- Assignment `m[k] = v`: overwrite the entry of `k` or add one. -/
def store {K T : Type} [DecidableEq K] : GoMap K T → K → T → GoMap K T
  | [], k, v => [(k, v)]
  | (k', v') :: rest, k, v =>
      if k = k' then (k, v) :: rest else (k', v') :: store rest k v

/-- Built-in `len(m)`. -/
def len {K T : Type} (m : GoMap K T) : Nat := m.length

end GoMap

/-! ## `src/src/fastmap.go` -/

/-- Constant `prime` of fastmap.go. -/
def prime : Nat := 2654435761

/-- Struct `FastNgramsMap[T]`. -/
structure FastNgramsMap (T : Type) where
  unigrams : Array T
  unigramsSet : Array Bool
  bigrams : Array T
  bigramsSet : Array Bool
  trigrams : GoMap Nat T
  quadrigrams : GoMap Nat T
  remaining : GoMap Key T

/-- Loop `for i := 0; i < n; i++ { xs[i] = false }` of the constructor. -/
def clearFlags (n : Nat) (xs : Array Bool) : Option (Array Bool) :=
  (List.range n).foldlM (fun acc i => writeIndex acc i false) xs

/-- Function `NewFastNgramsMap[T](size)`: `none` would be a panic inside the
constructor. The hint `size` is only passed to `make(map[string]T, size)`, where
it pre-allocates space and has no effect on the content of the map (for a map,
a negative hint is not an error either). -/
def NewFastNgramsMap {T : Type} [Inhabited T] (_size : Int) : Option (FastNgramsMap T) := do
  let unigrams : Array T := makeSlice 256
  let unigramsSet ← clearFlags 256 (makeSlice 256)
  let bigrams : Array T := makeSlice (256 * 256)
  let bigramsSet ← clearFlags (256 * 256) (makeSlice (256 * 256))
  pure { unigrams := unigrams, unigramsSet := unigramsSet,
         bigrams := bigrams, bigramsSet := bigramsSet,
         trigrams := GoMap.empty, quadrigrams := GoMap.empty,
         remaining := GoMap.empty }

/-- Index of a 2-byte key: `uint16(ngram[0]) | uint16(ngram[1])<<8`. -/
def bigramKey (b0 b1 : Byte) : Nat :=
  u16 b0.val ||| u16 (u16 b1.val <<< 8)

/-- Container key of a 3-byte key:
`(uint32(ngram[0]) | uint32(ngram[1])<<8 | uint32(ngram[2])<<16) * 2654435761`. -/
def trigramKey (b0 b1 b2 : Byte) : Nat :=
  u32 ((u32 b0.val ||| u32 (u32 b1.val <<< 8) ||| u32 (u32 b2.val <<< 16)) * 2654435761)

/-- Container key of a 4-byte key:
`(uint32(ngram[0]) | uint32(ngram[1])<<8 | uint32(ngram[2])<<16 | uint32(ngram[3])<<24) * 2654435761`. -/
def quadrigramKey (b0 b1 b2 b3 : Byte) : Nat :=
  u32 ((u32 b0.val ||| u32 (u32 b1.val <<< 8) ||| u32 (u32 b2.val <<< 16)
      ||| u32 (u32 b3.val <<< 24)) * 2654435761)

/-- Container key of a 3-byte key as `Get` computes it (with the constant `prime`). -/
def trigramKeyGet (b0 b1 b2 : Byte) : Nat :=
  u32 ((u32 b0.val ||| u32 (u32 b1.val <<< 8) ||| u32 (u32 b2.val <<< 16)) * prime)

/-- Container key of a 4-byte key as `Get` computes it (with the constant `prime`). -/
def quadrigramKeyGet (b0 b1 b2 b3 : Byte) : Nat :=
  u32 ((u32 b0.val ||| u32 (u32 b1.val <<< 8) ||| u32 (u32 b2.val <<< 16)
      ||| u32 (u32 b3.val <<< 24)) * prime)

/-- Method `Put(ngram, value)`. The `switch n` on `n := len(ngram)` is the match
on the shape of the byte list: `case 1` to `case 4` are the lists of one to four
bytes, `default` is every other length (0, and 5 or more). `none` is a panic. -/
def Put {T : Type} (m : FastNgramsMap T) (ngram : Key) (value : T) :
    Option (FastNgramsMap T) :=
  match ngram with
  | [b0] => do
      let unigrams ← writeIndex m.unigrams b0.val value
      let unigramsSet ← writeIndex m.unigramsSet b0.val true
      pure { m with unigrams := unigrams, unigramsSet := unigramsSet }
  | [b0, b1] => do
      let key := bigramKey b0 b1
      let bigrams ← writeIndex m.bigrams key value
      let bigramsSet ← writeIndex m.bigramsSet key true
      pure { m with bigrams := bigrams, bigramsSet := bigramsSet }
  | [b0, b1, b2] =>
      let key := trigramKey b0 b1 b2
      some { m with trigrams := m.trigrams.store key value }
  | [b0, b1, b2, b3] =>
      let key := quadrigramKey b0 b1 b2 b3
      some { m with quadrigrams := m.quadrigrams.store key value }
  | _ => some { m with remaining := m.remaining.store ngram value }

/-- Method `Get(ngram)`, with the same `switch` on `len(ngram)` as `Put`; `none`
is a panic. -/
def Get {T : Type} [Inhabited T] (m : FastNgramsMap T) (ngram : Key) : Option (T × Bool) :=
  match ngram with
  | [b0] => do
      let zero : T := default
      let key := b0.val
      let isSet ← readIndex m.unigramsSet key
      if !isSet then pure (zero, false)
      else do
        let value ← readIndex m.unigrams key
        pure (value, true)
  | [b0, b1] => do
      let key := bigramKey b0 b1
      let zero : T := default
      let isSet ← readIndex m.bigramsSet key
      if !isSet then pure (zero, false)
      else do
        let value ← readIndex m.bigrams key
        pure (value, true)
  | [b0, b1, b2] =>
      let key := trigramKeyGet b0 b1 b2
      some (m.trigrams.index key)
  | [b0, b1, b2, b3] =>
      let key := quadrigramKeyGet b0 b1 b2 b3
      some (m.quadrigrams.index key)
  | _ => some (m.remaining.index ngram)

/-- Method `Has(ngram)`: `_, ok := m.Get(ngram); return ok`. -/
def Has {T : Type} [Inhabited T] (m : FastNgramsMap T) (ngram : Key) : Option Bool := do
  let (_, ok) ← Get m ngram
  pure ok

/-- Loop `for _, isSet := range flags { if isSet { count += 1 } }`. -/
def countSet (flags : Array Bool) (count : Nat) : Nat :=
  flags.foldl (fun c isSet => if isSet then c + 1 else c) count

/-- Method `Len()`. The Go result is an `int`; the count is at most
256 + 65536 + 2^32 + 2^32 plus the number of long keys held in memory, so it is
kept as a `Nat`. -/
def Len {T : Type} (m : FastNgramsMap T) : Nat :=
  let count := 0
  let count := countSet m.unigramsSet count
  let count := countSet m.bigramsSet count
  let count := count + m.trigrams.len
  let count := count + m.quadrigrams.len
  let count := count + m.remaining.len
  count

/-! ## `src/src/default_map.go` -/

/-- Struct `DefaultMap[T]`. -/
structure DefaultMap (T : Type) where
  entries : GoMap Key T

/-- Function `NewDefaultMap[T](size)`. -/
def NewDefaultMap {T : Type} (_size : Int) : DefaultMap T := { entries := GoMap.empty }

namespace DefaultMap

/-- Method `Get(key)`. -/
def Get {T : Type} [Inhabited T] (m : DefaultMap T) (key : Key) : T × Bool :=
  m.entries.index key

/-- Method `Has(key)`. -/
def Has {T : Type} [Inhabited T] (m : DefaultMap T) (key : Key) : Bool :=
  (m.entries.index key).2

/-- Method `Put(key, value)`. -/
def Put {T : Type} (m : DefaultMap T) (key : Key) (value : T) : DefaultMap T :=
  { entries := m.entries.store key value }

/-- Method `Len()`. -/
def Len {T : Type} (m : DefaultMap T) : Nat := m.entries.len

end DefaultMap

/-! ## Sequences of calls -/

/-- A sequence of `Put` calls on a map, first call first. -/
def puts {T : Type} (m : FastNgramsMap T) (calls : List (Key × T)) :
    Option (FastNgramsMap T) :=
  calls.foldlM (fun acc kv => Put acc kv.1 kv.2) m

/-- A fresh map built with hint `size`, then a sequence of `Put` calls. -/
def freshPuts {T : Type} [Inhabited T] (size : Int) (calls : List (Key × T)) :
    Option (FastNgramsMap T) :=
  (NewFastNgramsMap size).bind (fun m => puts m calls)

/-- A sequence of `Put` calls on a baseline map, first call first. -/
def DefaultMap.puts {T : Type} (m : DefaultMap T) (calls : List (Key × T)) : DefaultMap T :=
  calls.foldl (fun acc kv => acc.Put kv.1 kv.2) m

/-- Shape of the backing slices that the constructor allocates: 256 and
65536 slots for values and for presence flags. -/
def WF {T : Type} (m : FastNgramsMap T) : Prop :=
  m.unigrams.size = 256 ∧ m.unigramsSet.size = 256 ∧
  m.bigrams.size = 256 * 256 ∧ m.bigramsSet.size = 256 * 256

/-- The freshly constructed map: the state that `NewFastNgramsMap` returns
(theorem `NewFastNgramsMap_eq`). -/
def emptyMap {T : Type} [Inhabited T] : FastNgramsMap T :=
  { unigrams := makeSlice 256, unigramsSet := makeSlice 256,
    bigrams := makeSlice (256 * 256), bigramsSet := makeSlice (256 * 256),
    trigrams := GoMap.empty, quadrigrams := GoMap.empty, remaining := GoMap.empty }

/-- The keys passed to a sequence of `Put` calls. -/
def keysOf {T : Type} (calls : List (Key × T)) : List Key := calls.map Prod.fst

/-- Every key of the sequence has byte length at least 1. -/
def NonEmptyKeys {T : Type} (calls : List (Key × T)) : Prop :=
  ∀ kv ∈ calls, 1 ≤ kv.1.length

instance {T : Type} (calls : List (Key × T)) : Decidable (NonEmptyKeys calls) := by
  unfold NonEmptyKeys
  infer_instance

instance {T : Type} (m : FastNgramsMap T) : Decidable (WF m) := by
  unfold WF
  infer_instance

/-- Number of distinct keys in a sequence of `Put` calls. -/
def distinctKeys {T : Type} (calls : List (Key × T)) : Nat := (keysOf calls).dedup.length

/-- The five calls of the end-to-end example: `Put("a", 10)`, `Put("ab", 20)`,
`Put("abc", 30)`, `Put("abcd", 40)`, `Put("abcde", 50)`; `'a'` is byte 97. -/
def exampleCalls : List (Key × Int) :=
  [([97], 10), ([97, 98], 20), ([97, 98, 99], 30), ([97, 98, 99, 100], 40),
   ([97, 98, 99, 100, 101], 50)]

/-! ## `src/src/utils/ngrams.go`

A text is given by its runes, the slice `[]rune(text)`; `utf8.RuneCountInString(text)`
is the length of that slice. An n-gram `string(chars[j : j+k])` is given by its
runes too. An iterator `iter.Seq[string]` is the list of the values it yields
to a consumer that never stops it, and `none` when producing them panics. The
sizes and counts are Go `int`s, kept as `Int`: for sizes that are at least 1
every intermediate value lies between 0 and `len(gramSizes) * n`. -/

namespace Utils

/-- One rune (code point) of a text. -/
abbrev Rune := Nat

/-- Slice expression `chars[lo:hi]`; `none` is the slice-bounds panic. In
`IterNgrams` the upper index never exceeds `len(chars)`, which is at most the
capacity that Go checks it against. -/
def sliceRunes (chars : List Rune) (lo hi : Int) : Option (List Rune) :=
  if 0 ≤ lo ∧ lo ≤ hi ∧ hi ≤ (chars.length : Int) then
    some ((chars.drop lo.toNat).take (hi - lo).toNat)
  else none

/-- Loop `i := 0; for x := range seq { xs[i] = x; i++ }`, which fills a slice
with the values of a sequence; `none` is the index-out-of-range panic. -/
def fillSlice {E : Type} (xs : Array E) (seq : List E) : Option (Array E) :=
  (seq.foldlM (fun (st : Array E × Nat) x =>
      (writeIndex st.1 st.2 x).map (fun ys => (ys, st.2 + 1))) (xs, 0)).map Prod.fst

/-- Function `slices.Sort` on `[]int`: the slice in increasing order. -/
def sortInts (xs : List Int) : List Int := xs.insertionSort (fun a b => a ≤ b)

/-- Function `slices.SortFunc(xs, cmp)`: the slice ordered by `cmp`, where
`cmp(a, b) ≤ 0` puts `a` before `b`. Go leaves the order of elements that
compare equal unspecified; this is one such order. -/
def SortFunc {E : Type} (xs : List E) (cmp : E → E → Int) : List E :=
  xs.insertionSort (fun a b => cmp a b ≤ 0)

/-- Function `GetNgramsCount(text, gramSizes)`. -/
def GetNgramsCount (text : List Rune) (gramSizes : List Int) : Int :=
  let n : Int := text.length
  gramSizes.foldl (fun m i => if i > n then m else m + (n - i + 1)) 0

/-- Inner loop of `IterNgrams` for one `ngramSize`:
`for j := 0; j < n-ngramSize+1; j++ { yield(string(chars[j : j+ngramSize])) }`. -/
def ngramsOfSize (chars : List Rune) (ngramSize : Int) : Option (List (List Rune)) :=
  let n : Int := chars.length
  (List.range (n - ngramSize + 1).toNat).mapM
    (fun (j : Nat) => sliceRunes chars (j : Int) ((j : Int) + ngramSize))

/-- Function `IterNgrams(text, gramSizes)`: the n-grams in the order they are
yielded. The sorted copy `gramSizesSorted` is built and the loop ranges over
`gramSizes`, as in the source. -/
def IterNgrams (text : List Rune) (gramSizes : List Int) : Option (List (List Rune)) :=
  let _gramSizesSorted := sortInts gramSizes
  let chars := text
  (gramSizes.mapM (fun ngramSize => ngramsOfSize chars ngramSize)).map List.flatten

/-- Function `GetNgrams(text, gramSizes)`. -/
def GetNgrams (text : List Rune) (gramSizes : List Int) : Option (Array (List Rune)) := do
  let numNgrams := GetNgramsCount text gramSizes
  let ngrams ← makeSliceInt numNgrams
  let seq ← IterNgrams text gramSizes
  fillSlice ngrams seq

/-- Function `GetNgramsRanking(profile, n)`. The loop `for ngram := range profile`
visits the keys in an order that Go does not specify; here it is the order of
the entries. The parameter `n` is not used by the body, as in the source.
Frequencies are Go `int`s kept as `Int`: the difference of two non-negative
frequencies does not overflow. -/
def GetNgramsRanking (profile : GoMap Key Int) (_n : Int) : Option (Array Key) := do
  let ranking ← makeSliceInt (profile.len : Int)
  let ranking ← fillSlice ranking (profile.map Prod.fst)
  let ranking := SortFunc ranking.toList
    (fun a b => (profile.index a).1 - (profile.index b).1)
  let ranking := ranking.reverse
  pure ranking.toArray

/-- Lengths in runes of a sequence of n-grams. -/
def runeLengths (ngrams : List (List Rune)) : List Nat := ngrams.map List.length

end Utils

/-! ## `src/fastmap.go` (package `main`)

The map of the repository root. Its key transforms are the expressions of
`src/src/fastmap.go`, so `bigramKey`, `trigramKey`, `quadrigramKey` and their
`Get` variants are shared. A `map[string]T` that may be `nil` is an `Option`:
`none` is the `nil` map, which reads as an empty map and panics when written. -/

namespace Main

/-- Constant `prime` of the root fastmap.go, equal to the constant of
`src/src/fastmap.go` that the shared `Get` key transforms use. -/
def prime : Nat := 2654435761

/-- Struct `FastNgramsMap[T]` of package `main`: `remaining` is a slice of maps. -/
structure FastNgramsMap (T : Type) where
  unigrams : Array T
  unigramsSet : Array Bool
  bigrams : Array T
  bigramsSet : Array Bool
  trigrams : GoMap Nat T
  quadrigrams : GoMap Nat T
  remaining : Array (Option (GoMap Key T))

/-- Loop `for i := 0; i < len(m.remaining); i++ { m.remaining[i] = make(map[string]T) }`. -/
def makeMaps {T : Type} (remaining : Array (Option (GoMap Key T))) :
    Option (Array (Option (GoMap Key T))) :=
  (List.range remaining.size).foldlM (fun acc i => writeIndex acc i (some GoMap.empty))
    remaining

/-- Function `NewFastNgramsMap[T](maxNgramSize, n)` of package `main`; `none` is
a panic (`make` with a negative length when `maxNgramSize` is below 1). The
parameter `n` is not used by the body. -/
def NewFastNgramsMap {T : Type} [Inhabited T] (maxNgramSize : Int) (_n : Int) :
    Option (FastNgramsMap T) := do
  let unigrams : Array T := makeSlice 256
  let unigramsSet ← clearFlags 256 (makeSlice 256)
  let bigrams : Array T := makeSlice (256 * 256)
  let bigramsSet ← clearFlags (256 * 256) (makeSlice (256 * 256))
  let remaining ← makeSliceInt (4 * maxNgramSize - 4)
  let remaining ← makeMaps remaining
  pure { unigrams := unigrams, unigramsSet := unigramsSet,
         bigrams := bigrams, bigramsSet := bigramsSet,
         trigrams := GoMap.empty, quadrigrams := GoMap.empty,
         remaining := remaining }

/-- Method `Put(ngram, value)` of package `main`. In `case 1` the flag is
written to `bigramsSet`, and the `default` case indexes `remaining` with
`n = len(ngram)`, as in the source. `none` is a panic. -/
def Put {T : Type} (m : FastNgramsMap T) (ngram : Key) (value : T) :
    Option (FastNgramsMap T) :=
  match ngram with
  | [b0] => do
      let unigrams ← writeIndex m.unigrams b0.val value
      let bigramsSet ← writeIndex m.bigramsSet b0.val true
      pure { m with unigrams := unigrams, bigramsSet := bigramsSet }
  | [b0, b1] => do
      let key := bigramKey b0 b1
      let bigrams ← writeIndex m.bigrams key value
      let bigramsSet ← writeIndex m.bigramsSet key true
      pure { m with bigrams := bigrams, bigramsSet := bigramsSet }
  | [b0, b1, b2] =>
      let key := trigramKey b0 b1 b2
      some { m with trigrams := m.trigrams.store key value }
  | [b0, b1, b2, b3] =>
      let key := quadrigramKey b0 b1 b2 b3
      some { m with quadrigrams := m.quadrigrams.store key value }
  | _ => do
      let n := ngram.length
      let slot ← readIndex m.remaining n
      let entries ← slot
      let remaining ← writeIndex m.remaining n (some (entries.store ngram value))
      pure { m with remaining := remaining }

/-- Method `Get(ngram)` of package `main`; `none` is a panic. -/
def Get {T : Type} [Inhabited T] (m : FastNgramsMap T) (ngram : Key) : Option (T × Bool) :=
  match ngram with
  | [b0] => do
      let zero : T := default
      let key := b0.val
      let isSet ← readIndex m.unigramsSet key
      if !isSet then pure (zero, false)
      else do
        let value ← readIndex m.unigrams key
        pure (value, true)
  | [b0, b1] => do
      let key := bigramKey b0 b1
      let zero : T := default
      let isSet ← readIndex m.bigramsSet key
      if !isSet then pure (zero, false)
      else do
        let value ← readIndex m.bigrams key
        pure (value, true)
  | [b0, b1, b2] =>
      let key := trigramKeyGet b0 b1 b2
      some (m.trigrams.index key)
  | [b0, b1, b2, b3] =>
      let key := quadrigramKeyGet b0 b1 b2 b3
      some (m.quadrigrams.index key)
  | _ => do
      let n := ngram.length
      let slot ← readIndex m.remaining n
      match slot with
      | some entries => pure (entries.index ngram)
      | none => pure (default, false)

/-- The state that `NewFastNgramsMap` of package `main` returns when `remaining`
gets `slots` maps (theorem `Main_NewFastNgramsMap_eq`). -/
def emptyMap {T : Type} [Inhabited T] (slots : Nat) : FastNgramsMap T :=
  { unigrams := makeSlice 256, unigramsSet := makeSlice 256,
    bigrams := makeSlice (256 * 256), bigramsSet := makeSlice (256 * 256),
    trigrams := GoMap.empty, quadrigrams := GoMap.empty,
    remaining := mkArray slots (some GoMap.empty) }

end Main

/-! ## Lemmas on the Go primitives -/

section Primitives

variable {K T : Type}

theorem GoMap.lookup_store_self [DecidableEq K] (m : GoMap K T) (k : K) (v : T) :
    GoMap.lookup (GoMap.store m k v) k = some v := by
  induction m with
  | nil => simp [GoMap.store, GoMap.lookup]
  | cons e rest ih =>
    obtain ⟨k', v'⟩ := e
    by_cases h : k = k'
    · simp [GoMap.store, GoMap.lookup, h]
    · simp [GoMap.store, GoMap.lookup, h, ih]

theorem GoMap.lookup_store_ne [DecidableEq K] (m : GoMap K T) {k q : K} (v : T)
    (hq : q ≠ k) : GoMap.lookup (GoMap.store m k v) q = GoMap.lookup m q := by
  induction m with
  | nil => simp [GoMap.store, GoMap.lookup, hq]
  | cons e rest ih =>
    obtain ⟨k', v'⟩ := e
    by_cases h : k = k'
    · subst h
      simp [GoMap.store, GoMap.lookup, hq]
    · by_cases h' : q = k'
      · simp [GoMap.store, GoMap.lookup, h, h']
      · simp [GoMap.store, GoMap.lookup, h, h', ih]

theorem GoMap.len_store [DecidableEq K] (m : GoMap K T) (k : K) (v : T) :
    GoMap.len (GoMap.store m k v)
      = GoMap.len m + (if (GoMap.lookup m k).isSome then 0 else 1) := by
  induction m with
  | nil => simp [GoMap.store, GoMap.lookup, GoMap.len]
  | cons e rest ih =>
    obtain ⟨k', v'⟩ := e
    by_cases h : k = k'
    · simp [GoMap.store, GoMap.lookup, GoMap.len, h]
    · simp only [GoMap.len] at ih
      simp [GoMap.store, GoMap.lookup, GoMap.len, h, ih]
      omega

theorem GoMap.index_snd [DecidableEq K] [Inhabited T] (m : GoMap K T) (k : K) :
    (GoMap.index m k).2 = (GoMap.lookup m k).isSome := by
  unfold GoMap.index
  cases GoMap.lookup m k <;> rfl

theorem GoMap.index_absent [DecidableEq K] [Inhabited T] (m : GoMap K T) (k : K)
    (h : (GoMap.index m k).2 = false) : GoMap.index m k = (default, false) := by
  unfold GoMap.index at h ⊢
  cases hl : GoMap.lookup m k with
  | none => rfl
  | some x => rw [hl] at h; cases h

theorem GoMap.index_store_self [DecidableEq K] [Inhabited T] (m : GoMap K T) (k : K) (v : T) :
    GoMap.index (GoMap.store m k v) k = (v, true) := by
  simp [GoMap.index, GoMap.lookup_store_self]

theorem GoMap.index_store_ne [DecidableEq K] [Inhabited T] (m : GoMap K T) {k q : K} (v : T)
    (hq : q ≠ k) : GoMap.index (GoMap.store m k v) q = GoMap.index m q := by
  simp [GoMap.index, GoMap.lookup_store_ne m v hq]

theorem GoMap.len_store_index [DecidableEq K] [Inhabited T] (m : GoMap K T) (k : K) (v : T) :
    GoMap.len (GoMap.store m k v)
      = GoMap.len m + (if (GoMap.index m k).2 = true then 0 else 1) := by
  rw [GoMap.len_store, GoMap.index_snd]

theorem writeIndex_eq (xs : Array T) {i : Nat} (v : T) (h : i < xs.size) :
    writeIndex xs i v = some (xs.setD i v) := by
  simp [writeIndex, Array.setD, h]

theorem readIndex_setD_self (xs : Array T) {i : Nat} (v : T) (h : i < xs.size) :
    readIndex (xs.setD i v) i = some v := by
  simp [readIndex, Array.getElem?_setD_eq, h]

theorem readIndex_setD_ne (xs : Array T) {i j : Nat} (v : T) (h : i ≠ j) :
    readIndex (xs.setD i v) j = readIndex xs j := by
  obtain ⟨l⟩ := xs
  simp [readIndex, Array.setD]
  split
  · simp [Array.getElem?_eq_getElem?_toList, List.getElem?_set_ne h]
  · rfl

theorem readIndex_isSome (xs : Array T) {i : Nat} (h : i < xs.size) :
    ∃ x, readIndex xs i = some x := by
  simp [readIndex, Array.getElem?_eq, h]

theorem countSet_toList (flags : Array Bool) (c : Nat) :
    countSet flags c = c + flags.toList.count true := by
  unfold countSet
  rw [Array.foldl_eq_foldl_toList]
  generalize flags.toList = l
  induction l generalizing c with
  | nil => simp
  | cons b rest ih =>
    cases b
    · simp [ih]
    · simp [ih]; omega

theorem count_set_true (l : List Bool) (i : Nat) (h : i < l.length) :
    (l.set i true).count true = l.count true + (if l[i]? = some true then 0 else 1) := by
  induction l generalizing i with
  | nil => simp at h
  | cons b rest ih =>
    cases i with
    | zero => cases b <;> simp
    | succ n =>
      have hn : n < rest.length := by simpa using h
      cases b
      · simp [ih n hn]
      · simp [ih n hn]
        omega

theorem count_setD (flags : Array Bool) {i : Nat} (h : i < flags.size) :
    (flags.setD i true).toList.count true
      = flags.toList.count true + (if readIndex flags i = some true then 0 else 1) := by
  obtain ⟨l⟩ := flags
  have h' : i < l.length := h
  simp only [Array.setD, readIndex]
  rw [dif_pos h]
  simp only [Array.toList_set, Array.getElem?_eq_getElem?_toList]
  rw [count_set_true l i h']

end Primitives

/-! ## The key transforms -/

section Keys

theorem lor_shift_eq_add {a : Nat} (i b : Nat) (ha : a < 2 ^ i) :
    a ||| (b <<< i) = a + 2 ^ i * b := by
  rw [Nat.shiftLeft_eq, Nat.mul_comm b, Nat.lor_comm, ← Nat.mul_add_lt_is_or ha, Nat.add_comm]

theorem bigramKey_eq (b0 b1 : Byte) : bigramKey b0 b1 = b0.val + 256 * b1.val := by
  have h0 := b0.isLt
  have h1 := b1.isLt
  unfold bigramKey u16
  rw [Nat.mod_eq_of_lt (by omega : b0.val < 2 ^ 16),
    Nat.mod_eq_of_lt (by omega : b1.val < 2 ^ 16), Nat.shiftLeft_eq,
    Nat.mod_eq_of_lt (by omega : b1.val * 2 ^ 8 < 2 ^ 16), ← Nat.shiftLeft_eq,
    lor_shift_eq_add 8 b1.val (by omega : b0.val < 2 ^ 8)]
  norm_num

theorem bigramKey_lt (b0 b1 : Byte) : bigramKey b0 b1 < 65536 := by
  have h0 := b0.isLt
  have h1 := b1.isLt
  rw [bigramKey_eq]
  omega

theorem bigramKey_inj {a0 a1 b0 b1 : Byte} (h : bigramKey a0 a1 = bigramKey b0 b1) :
    a0 = b0 ∧ a1 = b1 := by
  have ha0 := a0.isLt
  have hb0 := b0.isLt
  rw [bigramKey_eq, bigramKey_eq] at h
  constructor <;> apply Fin.ext <;> omega

/-- The three bytes packed least-significant-byte-first, before the multiplication. -/
theorem pack3_eq (b0 b1 b2 : Byte) :
    u32 b0.val ||| u32 (u32 b1.val <<< 8) ||| u32 (u32 b2.val <<< 16)
      = b0.val + 256 * b1.val + 65536 * b2.val := by
  have h0 := b0.isLt
  have h1 := b1.isLt
  have h2 := b2.isLt
  unfold u32
  rw [Nat.mod_eq_of_lt (by omega : b0.val < 2 ^ 32),
    Nat.mod_eq_of_lt (by omega : b1.val < 2 ^ 32),
    Nat.mod_eq_of_lt (by omega : b2.val < 2 ^ 32), Nat.shiftLeft_eq, Nat.shiftLeft_eq,
    Nat.mod_eq_of_lt (by omega : b1.val * 2 ^ 8 < 2 ^ 32),
    Nat.mod_eq_of_lt (by omega : b2.val * 2 ^ 16 < 2 ^ 32), ← Nat.shiftLeft_eq,
    ← Nat.shiftLeft_eq, lor_shift_eq_add 8 b1.val (by omega : b0.val < 2 ^ 8),
    lor_shift_eq_add 16 b2.val (by omega : b0.val + 2 ^ 8 * b1.val < 2 ^ 16)]
  norm_num

/-- The four bytes packed least-significant-byte-first, before the multiplication. -/
theorem pack4_eq (b0 b1 b2 b3 : Byte) :
    u32 b0.val ||| u32 (u32 b1.val <<< 8) ||| u32 (u32 b2.val <<< 16)
        ||| u32 (u32 b3.val <<< 24)
      = b0.val + 256 * b1.val + 65536 * b2.val + 16777216 * b3.val := by
  have h0 := b0.isLt
  have h1 := b1.isLt
  have h2 := b2.isLt
  have h3 := b3.isLt
  rw [pack3_eq]
  unfold u32
  rw [Nat.mod_eq_of_lt (by omega : b3.val < 2 ^ 32), Nat.shiftLeft_eq,
    Nat.mod_eq_of_lt (by omega : b3.val * 2 ^ 24 < 2 ^ 32), ← Nat.shiftLeft_eq,
    lor_shift_eq_add 24 b3.val
      (by omega : b0.val + 256 * b1.val + 65536 * b2.val < 2 ^ 24)]
  norm_num

/-- Multiplication by 2654435761 modulo 2^32 is injective on 32-bit values:
244002641 is the inverse of the constant. -/
theorem mul_prime_inj {x y : Nat} (hx : x < 2 ^ 32) (hy : y < 2 ^ 32)
    (h : u32 (x * 2654435761) = u32 (y * 2654435761)) : x = y := by
  unfold u32 at h
  have key : ∀ z : Nat, z < 2 ^ 32 → (z * 2654435761 % 2 ^ 32) * 244002641 % 2 ^ 32 = z := by
    intro z hz
    rw [Nat.mod_mul_mod, Nat.mul_assoc]
    norm_num
    omega
  rw [← key x hx, ← key y hy, h]

theorem trigramKey_inj {a0 a1 a2 b0 b1 b2 : Byte}
    (h : trigramKey a0 a1 a2 = trigramKey b0 b1 b2) : a0 = b0 ∧ a1 = b1 ∧ a2 = b2 := by
  have ha0 := a0.isLt
  have ha1 := a1.isLt
  have ha2 := a2.isLt
  have hb0 := b0.isLt
  have hb1 := b1.isLt
  have hb2 := b2.isLt
  unfold trigramKey at h
  rw [pack3_eq, pack3_eq] at h
  have := mul_prime_inj (by omega) (by omega) h
  refine ⟨?_, ?_, ?_⟩ <;> apply Fin.ext <;> omega

theorem quadrigramKey_inj {a0 a1 a2 a3 b0 b1 b2 b3 : Byte}
    (h : quadrigramKey a0 a1 a2 a3 = quadrigramKey b0 b1 b2 b3) :
    a0 = b0 ∧ a1 = b1 ∧ a2 = b2 ∧ a3 = b3 := by
  have ha0 := a0.isLt
  have ha1 := a1.isLt
  have ha2 := a2.isLt
  have ha3 := a3.isLt
  have hb0 := b0.isLt
  have hb1 := b1.isLt
  have hb2 := b2.isLt
  have hb3 := b3.isLt
  unfold quadrigramKey at h
  rw [pack4_eq, pack4_eq] at h
  have := mul_prime_inj (by omega) (by omega) h
  refine ⟨?_, ?_, ?_, ?_⟩ <;> apply Fin.ext <;> omega

theorem trigramKeyGet_eq (b0 b1 b2 : Byte) : trigramKeyGet b0 b1 b2 = trigramKey b0 b1 b2 := rfl

theorem quadrigramKeyGet_eq (b0 b1 b2 b3 : Byte) :
    quadrigramKeyGet b0 b1 b2 b3 = quadrigramKey b0 b1 b2 b3 := rfl

end Keys

/-! ## The constructor -/

section Constructor

variable {T : Type}

theorem clearFlags_makeSlice (n : Nat) : clearFlags n (makeSlice n) = some (makeSlice n) := by
  unfold clearFlags
  have aux : ∀ l : List Nat, (∀ i ∈ l, i < n) →
      l.foldlM (fun acc i => writeIndex acc i false) (makeSlice n)
        = some (makeSlice n) := by
    intro l
    induction l with
    | nil => intro _; rfl
    | cons i rest ih =>
      intro hl
      have hi' : i < n := hl i (by simp)
      have hi : i < (makeSlice n : Array Bool).size := by simpa [makeSlice] using hi'
      have hset : (makeSlice n : Array Bool).setD i false = makeSlice n := by
        apply Array.ext'
        have hd : (default : Bool) = false := rfl
        simp [makeSlice, Array.setD, hi', hd]
      rw [List.foldlM_cons, writeIndex_eq _ _ hi, hset]
      exact ih (fun j hj => hl j (List.mem_cons_of_mem _ hj))
  exact aux _ (fun i hi => List.mem_range.mp hi)

/-- The constructor returns (no index of its two loops is out of range), and
what it returns. -/
theorem NewFastNgramsMap_eq [Inhabited T] (size : Int) :
    (NewFastNgramsMap size : Option (FastNgramsMap T)) = some emptyMap := by
  unfold NewFastNgramsMap
  rw [clearFlags_makeSlice, clearFlags_makeSlice]
  rfl

end Constructor

/-! ## One call of `Put`, tier by tier -/

section Tiers

variable {T : Type}

theorem size_makeSlice [Inhabited T] (n : Nat) : (makeSlice n : Array T).size = n := by
  simp [makeSlice]

theorem readIndex_makeSlice [Inhabited T] {n i : Nat} (h : i < n) :
    readIndex (makeSlice n : Array T) i = some default := by
  simp [readIndex, makeSlice, Array.getElem?_eq, h]

theorem countSet_makeSlice (n c : Nat) : countSet (makeSlice n) c = c := by
  have hd : (default : Bool) = false := rfl
  rw [countSet_toList]
  simp [makeSlice, hd, List.count_replicate]

theorem Len_eq (m : FastNgramsMap T) :
    Len m = m.unigramsSet.toList.count true + m.bigramsSet.toList.count true
      + m.trigrams.len + m.quadrigrams.len + m.remaining.len := by
  simp [Len, countSet_toList]

theorem Put_unigram (m : FastNgramsMap T) (b0 : Byte) (v : T) (h : WF m) :
    Put m [b0] v = some { m with unigrams := m.unigrams.setD b0.val v,
                                 unigramsSet := m.unigramsSet.setD b0.val true } := by
  obtain ⟨h1, h2, -, -⟩ := h
  have hb := b0.isLt
  simp only [Put]
  rw [writeIndex_eq _ _ (by omega : b0.val < m.unigrams.size),
    writeIndex_eq _ _ (by omega : b0.val < m.unigramsSet.size)]
  rfl

theorem Put_bigram (m : FastNgramsMap T) (b0 b1 : Byte) (v : T) (h : WF m) :
    Put m [b0, b1] v = some { m with bigrams := m.bigrams.setD (bigramKey b0 b1) v,
                                     bigramsSet := m.bigramsSet.setD (bigramKey b0 b1) true } := by
  obtain ⟨-, -, h3, h4⟩ := h
  have hb := bigramKey_lt b0 b1
  simp only [Put]
  rw [writeIndex_eq _ _ (by omega : bigramKey b0 b1 < m.bigrams.size),
    writeIndex_eq _ _ (by omega : bigramKey b0 b1 < m.bigramsSet.size)]
  rfl

theorem Get_unigram [Inhabited T] (m : FastNgramsMap T) (b0 : Byte) (h : WF m) :
    ∃ isSet x, readIndex m.unigramsSet b0.val = some isSet ∧
      readIndex m.unigrams b0.val = some x ∧
      Get m [b0] = some (if isSet then x else default, isSet) := by
  obtain ⟨h1, h2, -, -⟩ := h
  have hb := b0.isLt
  obtain ⟨isSet, hs⟩ := readIndex_isSome m.unigramsSet (by omega : b0.val < m.unigramsSet.size)
  obtain ⟨x, hx⟩ := readIndex_isSome m.unigrams (by omega : b0.val < m.unigrams.size)
  refine ⟨isSet, x, hs, hx, ?_⟩
  simp only [Get, hs, hx]
  cases isSet <;> rfl

theorem Get_bigram [Inhabited T] (m : FastNgramsMap T) (b0 b1 : Byte) (h : WF m) :
    ∃ isSet x, readIndex m.bigramsSet (bigramKey b0 b1) = some isSet ∧
      readIndex m.bigrams (bigramKey b0 b1) = some x ∧
      Get m [b0, b1] = some (if isSet then x else default, isSet) := by
  obtain ⟨-, -, h3, h4⟩ := h
  have hb := bigramKey_lt b0 b1
  obtain ⟨isSet, hs⟩ :=
    readIndex_isSome m.bigramsSet (by omega : bigramKey b0 b1 < m.bigramsSet.size)
  obtain ⟨x, hx⟩ := readIndex_isSome m.bigrams (by omega : bigramKey b0 b1 < m.bigrams.size)
  refine ⟨isSet, x, hs, hx, ?_⟩
  simp only [Get, hs, hx]
  cases isSet <;> rfl

end Tiers

/-! ## One call of `Put` on a well-formed map -/

section OneCall

variable {T : Type}

/-- `Put` returns on a well-formed map, whatever the key, and keeps the map
well formed. -/
theorem Put_wf (m : FastNgramsMap T) (k : Key) (v : T) (h : WF m) :
    ∃ m', Put m k v = some m' ∧ WF m' := by
  rcases k with _ | ⟨b0, _ | ⟨b1, _ | ⟨b2, _ | ⟨b3, _ | ⟨b4, rest⟩⟩⟩⟩⟩
  · exact ⟨_, rfl, h⟩
  · refine ⟨_, Put_unigram m b0 v h, ?_⟩
    obtain ⟨h1, h2, h3, h4⟩ := h
    exact ⟨by simp [h1], by simp [h2], h3, h4⟩
  · refine ⟨_, Put_bigram m b0 b1 v h, ?_⟩
    obtain ⟨h1, h2, h3, h4⟩ := h
    exact ⟨h1, h2, by simp [h3], by simp [h4]⟩
  · exact ⟨_, rfl, h⟩
  · exact ⟨_, rfl, h⟩
  · exact ⟨_, rfl, h⟩

/-- `Get` returns on a well-formed map, whatever the key. -/
theorem Get_total [Inhabited T] (m : FastNgramsMap T) (k : Key) (h : WF m) :
    ∃ r, Get m k = some r := by
  rcases k with _ | ⟨b0, _ | ⟨b1, _ | ⟨b2, _ | ⟨b3, _ | ⟨b4, rest⟩⟩⟩⟩⟩
  · exact ⟨_, rfl⟩
  · obtain ⟨isSet, x, -, -, hg⟩ := Get_unigram m b0 h
    exact ⟨_, hg⟩
  · obtain ⟨isSet, x, -, -, hg⟩ := Get_bigram m b0 b1 h
    exact ⟨_, hg⟩
  · exact ⟨_, rfl⟩
  · exact ⟨_, rfl⟩
  · exact ⟨_, rfl⟩

/-- After `Put(k, v)`, `Get(k)` is `(v, true)`. -/
theorem Get_Put_self [Inhabited T] {m m' : FastNgramsMap T} {k : Key} {v : T} (h : WF m)
    (hp : Put m k v = some m') : Get m' k = some (v, true) := by
  rcases k with _ | ⟨b0, _ | ⟨b1, _ | ⟨b2, _ | ⟨b3, _ | ⟨b4, rest⟩⟩⟩⟩⟩
  · cases hp
    simp only [Get, GoMap.index_store_self]
  · rw [Put_unigram m b0 v h] at hp
    cases hp
    obtain ⟨h1, h2, -, -⟩ := h
    have hb := b0.isLt
    simp only [Get]
    rw [readIndex_setD_self _ _ (by omega), readIndex_setD_self _ _ (by omega)]
    rfl
  · rw [Put_bigram m b0 b1 v h] at hp
    cases hp
    obtain ⟨-, -, h3, h4⟩ := h
    have hb := bigramKey_lt b0 b1
    simp only [Get]
    rw [readIndex_setD_self _ _ (by omega), readIndex_setD_self _ _ (by omega)]
    rfl
  · cases hp
    simp only [Get, trigramKeyGet_eq, GoMap.index_store_self]
  · cases hp
    simp only [Get, quadrigramKeyGet_eq, GoMap.index_store_self]
  · cases hp
    simp only [Get, GoMap.index_store_self]

/-- `Put(k, v)` leaves `Get(q)` as it was for every other key `q`. -/
theorem Get_Put_ne [Inhabited T] {m m' : FastNgramsMap T} {k q : Key} {v : T} (h : WF m)
    (hp : Put m k v = some m') (hq : q ≠ k) : Get m' q = Get m q := by
  rcases k with _ | ⟨b0, _ | ⟨b1, _ | ⟨b2, _ | ⟨b3, _ | ⟨b4, rest⟩⟩⟩⟩⟩
  · cases hp
    rcases q with _ | ⟨c0, _ | ⟨c1, _ | ⟨c2, _ | ⟨c3, _ | ⟨c4, more⟩⟩⟩⟩⟩
    · exact absurd rfl hq
    · rfl
    · rfl
    · rfl
    · rfl
    · simp only [Get, GoMap.index_store_ne _ _ hq]
  · rw [Put_unigram m b0 v h] at hp
    cases hp
    rcases q with _ | ⟨c0, _ | ⟨c1, _ | ⟨c2, _ | ⟨c3, _ | ⟨c4, more⟩⟩⟩⟩⟩
    · rfl
    · have hne : b0.val ≠ c0.val := by
        intro e
        exact hq (by rw [Fin.ext e])
      simp only [Get, readIndex_setD_ne _ _ hne]
    · rfl
    · rfl
    · rfl
    · rfl
  · rw [Put_bigram m b0 b1 v h] at hp
    cases hp
    rcases q with _ | ⟨c0, _ | ⟨c1, _ | ⟨c2, _ | ⟨c3, _ | ⟨c4, more⟩⟩⟩⟩⟩
    · rfl
    · rfl
    · have hne : bigramKey b0 b1 ≠ bigramKey c0 c1 := by
        intro e
        obtain ⟨e0, e1⟩ := bigramKey_inj e
        exact hq (by rw [e0, e1])
      simp only [Get, readIndex_setD_ne _ _ hne]
    · rfl
    · rfl
    · rfl
  · cases hp
    rcases q with _ | ⟨c0, _ | ⟨c1, _ | ⟨c2, _ | ⟨c3, _ | ⟨c4, more⟩⟩⟩⟩⟩
    · rfl
    · rfl
    · rfl
    · have hne : trigramKey c0 c1 c2 ≠ trigramKey b0 b1 b2 := by
        intro e
        obtain ⟨e0, e1, e2⟩ := trigramKey_inj e
        exact hq (by rw [e0, e1, e2])
      simp only [Get, trigramKeyGet_eq, GoMap.index_store_ne _ _ hne]
    · rfl
    · rfl
  · cases hp
    rcases q with _ | ⟨c0, _ | ⟨c1, _ | ⟨c2, _ | ⟨c3, _ | ⟨c4, more⟩⟩⟩⟩⟩
    · rfl
    · rfl
    · rfl
    · rfl
    · have hne : quadrigramKey c0 c1 c2 c3 ≠ quadrigramKey b0 b1 b2 b3 := by
        intro e
        obtain ⟨e0, e1, e2, e3⟩ := quadrigramKey_inj e
        exact hq (by rw [e0, e1, e2, e3])
      simp only [Get, quadrigramKeyGet_eq, GoMap.index_store_ne _ _ hne]
    · rfl
  · cases hp
    rcases q with _ | ⟨c0, _ | ⟨c1, _ | ⟨c2, _ | ⟨c3, _ | ⟨c4, more⟩⟩⟩⟩⟩
    · simp only [Get, GoMap.index_store_ne _ _ hq]
    · rfl
    · rfl
    · rfl
    · rfl
    · simp only [Get, GoMap.index_store_ne _ _ hq]

theorem Has_eq [Inhabited T] (m : FastNgramsMap T) (k : Key) :
    Has m k = (Get m k).map Prod.snd := by
  unfold Has
  cases Get m k <;> rfl

/-- `Put(k, v)` adds one to `Len()` when `Has(k)` was false and leaves it
unchanged when `Has(k)` was true. -/
theorem Len_Put [Inhabited T] {m m' : FastNgramsMap T} {k : Key} {v : T} (h : WF m)
    (hp : Put m k v = some m') :
    Len m' = Len m + (if Has m k = some true then 0 else 1) := by
  rw [Has_eq, Len_eq, Len_eq]
  rcases k with _ | ⟨b0, _ | ⟨b1, _ | ⟨b2, _ | ⟨b3, _ | ⟨b4, rest⟩⟩⟩⟩⟩
  · cases hp
    simp only [Get, Option.map, GoMap.len_store_index _ _ v, Option.some.injEq]
    omega
  · obtain ⟨isSet, x, hs, -, hg⟩ := Get_unigram m b0 h
    rw [Put_unigram m b0 v h] at hp
    cases hp
    obtain ⟨h1, h2, -, -⟩ := h
    have hb := b0.isLt
    simp only [hg, Option.map]
    rw [count_setD _ (by omega : b0.val < m.unigramsSet.size), hs]
    omega
  · obtain ⟨isSet, x, hs, -, hg⟩ := Get_bigram m b0 b1 h
    rw [Put_bigram m b0 b1 v h] at hp
    cases hp
    obtain ⟨-, -, h3, h4⟩ := h
    have hb := bigramKey_lt b0 b1
    simp only [hg, Option.map]
    rw [count_setD _ (by omega : bigramKey b0 b1 < m.bigramsSet.size), hs]
    omega
  · cases hp
    simp only [Get, Option.map, trigramKeyGet_eq, GoMap.len_store_index _ _ v,
      Option.some.injEq]
    omega
  · cases hp
    simp only [Get, Option.map, quadrigramKeyGet_eq, GoMap.len_store_index _ _ v,
      Option.some.injEq]
    omega
  · cases hp
    simp only [Get, Option.map, GoMap.len_store_index _ _ v, Option.some.injEq]
    omega

end OneCall

/-! ## The fresh map and sequences of calls -/

section Sequences

variable {T : Type}

theorem emptyMap_wf [Inhabited T] : WF (emptyMap : FastNgramsMap T) := by
  refine ⟨?_, ?_, ?_, ?_⟩ <;> simp only [emptyMap, size_makeSlice]

theorem Len_emptyMap [Inhabited T] : Len (emptyMap : FastNgramsMap T) = 0 := by
  simp only [Len, emptyMap, countSet_makeSlice, GoMap.len, GoMap.empty, List.length_nil]

theorem Get_emptyMap [Inhabited T] (k : Key) :
    Get (emptyMap : FastNgramsMap T) k = some (default, false) := by
  have hd : (default : Bool) = false := rfl
  rcases k with _ | ⟨b0, _ | ⟨b1, _ | ⟨b2, _ | ⟨b3, _ | ⟨b4, rest⟩⟩⟩⟩⟩
  · rfl
  · have hb := b0.isLt
    simp only [Get, emptyMap, readIndex_makeSlice hb, hd]
    rfl
  · have hb : bigramKey b0 b1 < 256 * 256 := bigramKey_lt b0 b1
    simp only [Get, emptyMap, readIndex_makeSlice hb, hd]
    rfl
  · rfl
  · rfl
  · rfl

theorem puts_nil (m : FastNgramsMap T) : puts m [] = some m := rfl

theorem puts_cons (m : FastNgramsMap T) (k : Key) (v : T) (rest : List (Key × T)) :
    puts m ((k, v) :: rest) = (Put m k v).bind (fun m' => puts m' rest) := by
  simp only [puts, List.foldlM_cons]
  rfl

theorem freshPuts_eq [Inhabited T] (size : Int) (calls : List (Key × T)) :
    freshPuts size calls = puts emptyMap calls := by
  unfold freshPuts
  rw [NewFastNgramsMap_eq, Option.some_bind]

/-- A sequence of `Put` calls on a well-formed map returns a well-formed map. -/
theorem puts_wf (calls : List (Key × T)) (m : FastNgramsMap T) (h : WF m) :
    ∃ m', puts m calls = some m' ∧ WF m' := by
  induction calls generalizing m with
  | nil => exact ⟨m, rfl, h⟩
  | cons kv rest ih =>
    obtain ⟨k, v⟩ := kv
    obtain ⟨m1, hp, h1⟩ := Put_wf m k v h
    obtain ⟨m', hr, h'⟩ := ih m1 h1
    exact ⟨m', by rw [puts_cons, hp]; exact hr, h'⟩

/-- The tiered map and the baseline map agree on every `Get` and on `Len`, and
keep agreeing after the same sequence of `Put` calls. -/
theorem puts_agree [Inhabited T] (calls : List (Key × T)) (m : FastNgramsMap T)
    (d : DefaultMap T) (h : WF m) (hg : ∀ q, Get m q = some (d.Get q))
    (hl : Len m = d.Len) :
    ∃ m', puts m calls = some m' ∧ WF m' ∧
      (∀ q, Get m' q = some ((d.puts calls).Get q)) ∧ Len m' = (d.puts calls).Len := by
  induction calls generalizing m d with
  | nil => exact ⟨m, rfl, h, hg, hl⟩
  | cons kv rest ih =>
    obtain ⟨k, v⟩ := kv
    obtain ⟨m1, hp, h1⟩ := Put_wf m k v h
    have hg1 : ∀ q, Get m1 q = some ((d.Put k v).Get q) := by
      intro q
      by_cases hq : q = k
      · subst hq
        rw [Get_Put_self h hp]
        simp only [DefaultMap.Get, DefaultMap.Put, GoMap.index_store_self]
      · rw [Get_Put_ne h hp hq, hg q]
        simp only [DefaultMap.Get, DefaultMap.Put, GoMap.index_store_ne _ _ hq]
    have hl1 : Len m1 = (d.Put k v).Len := by
      rw [Len_Put h hp, Has_eq, hg k, hl]
      simp only [DefaultMap.Len, DefaultMap.Put, DefaultMap.Get, Option.map,
        GoMap.len_store_index _ _ v, Option.some.injEq]
    obtain ⟨m', hr, h', hg', hl'⟩ := ih m1 (d.Put k v) h1 hg1 hl1
    refine ⟨m', ?_, h', hg', hl'⟩
    rw [puts_cons, hp]
    exact hr

/-- Agreement of the fresh tiered map with the fresh baseline map. -/
theorem freshPuts_agree [Inhabited T] (size size' : Int) (calls : List (Key × T)) :
    ∃ m, freshPuts size calls = some m ∧ WF m ∧
      (∀ q, Get m q = some (((NewDefaultMap size').puts calls).Get q)) ∧
      Len m = ((NewDefaultMap size').puts calls).Len := by
  rw [freshPuts_eq]
  apply puts_agree calls emptyMap (NewDefaultMap size') emptyMap_wf
  · intro q
    rw [Get_emptyMap]
    rfl
  · rw [Len_emptyMap]
    rfl

/-- Keys present and `Len()` after a sequence of `Put` calls, from a state whose
present keys are the finite set `S`. -/
theorem puts_present [Inhabited T] (calls : List (Key × T)) (m : FastNgramsMap T)
    (S : Finset Key) (h : WF m) (hS : ∀ q, Has m q = some (decide (q ∈ S)))
    (hl : Len m = S.card) :
    ∃ m', puts m calls = some m' ∧ WF m' ∧
      (∀ q, Has m' q = some (decide (q ∈ S ∪ (keysOf calls).toFinset))) ∧
      Len m' = (S ∪ (keysOf calls).toFinset).card := by
  induction calls generalizing m S with
  | nil => exact ⟨m, rfl, h, by simpa [keysOf] using hS, by simpa [keysOf] using hl⟩
  | cons kv rest ih =>
    obtain ⟨k, v⟩ := kv
    obtain ⟨m1, hp, h1⟩ := Put_wf m k v h
    have hS1 : ∀ q, Has m1 q = some (decide (q ∈ insert k S)) := by
      intro q
      by_cases hq : q = k
      · subst hq
        rw [Has_eq, Get_Put_self h hp]
        simp
      · have := hS q
        rw [Has_eq] at this ⊢
        rw [Get_Put_ne h hp hq, this]
        simp [hq]
    have hl1 : Len m1 = (insert k S).card := by
      rw [Len_Put h hp, hS k, hl]
      by_cases hk : k ∈ S
      · simp [hk]
      · simp [hk]
    obtain ⟨m', hr, h', hS', hl'⟩ := ih m1 (insert k S) h1 hS1 hl1
    have he : insert k S ∪ (keysOf rest).toFinset = S ∪ (keysOf ((k, v) :: rest)).toFinset := by
      ext x
      simp [keysOf]
    rw [he] at hS' hl'
    refine ⟨m', ?_, h', hS', hl'⟩
    rw [puts_cons, hp]
    exact hr

end Sequences

/-! ## The n-gram utilities -/

section Ngrams

open Utils

theorem mapM_option_eq_map {A B : Type} (f : A → Option B) (g : A → B) (l : List A)
    (h : ∀ x ∈ l, f x = some (g x)) : l.mapM f = some (l.map g) := by
  induction l with
  | nil => rfl
  | cons x rest ih =>
    rw [List.mapM_cons, h x (List.mem_cons_self _ _),
      ih (fun y hy => h y (List.mem_cons_of_mem _ hy))]
    rfl

/-- The n-grams of one size, when the size is not negative: no slice
expression panics, and there are `n - ngramSize + 1` of them (none when that is
not positive). -/
theorem ngramsOfSize_eq (chars : List Rune) (ngramSize : Int) (h : 0 ≤ ngramSize) :
    ngramsOfSize chars ngramSize
      = some ((List.range ((chars.length : Int) - ngramSize + 1).toNat).map
          (fun j => (chars.drop j).take ngramSize.toNat)) := by
  unfold ngramsOfSize
  apply mapM_option_eq_map
  intro j hj
  have hj' : j < ((chars.length : Int) - ngramSize + 1).toNat := List.mem_range.mp hj
  have h1 : (0 : Int) ≤ (j : Int) := Int.ofNat_nonneg j
  have h2 : (j : Int) + ngramSize ≤ (chars.length : Int) := by omega
  unfold sliceRunes
  rw [if_pos ⟨h1, by omega, h2⟩]
  have e1 : ((j : Int)).toNat = j := Int.toNat_natCast j
  have e2 : ((j : Int) + ngramSize - (j : Int)).toNat = ngramSize.toNat := by
    congr 1
    omega
  rw [e1, e2]

theorem IterNgrams_eq (text : List Rune) (gramSizes : List Int)
    (h : ∀ i ∈ gramSizes, 0 ≤ i) :
    IterNgrams text gramSizes
      = some ((gramSizes.map (fun ngramSize =>
          (List.range ((text.length : Int) - ngramSize + 1).toNat).map
            (fun j => (text.drop j).take ngramSize.toNat))).flatten) := by
  unfold IterNgrams
  simp only []
  rw [mapM_option_eq_map _ _ gramSizes (fun i hi => ngramsOfSize_eq text i (h i hi))]
  rfl

theorem GetNgramsCount_eq_sum (text : List Rune) (gramSizes : List Int) :
    GetNgramsCount text gramSizes
      = ((gramSizes.map (fun i => ((text.length : Int) - i + 1).toNat)).sum : Nat) := by
  unfold GetNgramsCount
  simp only []
  have aux : ∀ (l : List Int) (m : Int),
      l.foldl (fun m i => if i > (text.length : Int) then m
          else m + ((text.length : Int) - i + 1)) m
        = m + ((l.map (fun i => ((text.length : Int) - i + 1).toNat)).sum : Nat) := by
    intro l
    induction l with
    | nil => intro m; simp
    | cons i rest ih =>
      intro m
      rw [List.foldl_cons, ih, List.map_cons, List.sum_cons]
      split
      · have : ((text.length : Int) - i + 1).toNat = 0 := by omega
        rw [this]
        simp
      · have : ((((text.length : Int) - i + 1).toNat : Nat) : Int)
            = (text.length : Int) - i + 1 := by omega
        push_cast
        rw [this]
        ring
  rw [aux]
  simp

theorem length_IterNgrams_list (text : List Rune) (gramSizes : List Int) :
    ((gramSizes.map (fun ngramSize =>
        (List.range ((text.length : Int) - ngramSize + 1).toNat).map
          (fun j => (text.drop j).take ngramSize.toNat))).flatten).length
      = (gramSizes.map (fun i => ((text.length : Int) - i + 1).toNat)).sum := by
  rw [List.length_flatten, List.map_map]
  congr 1
  apply List.map_congr_left
  intro i _
  simp

theorem sum_toNat_eq_filter (n : Int) (gramSizes : List Int) :
    (((gramSizes.map (fun i => (n - i + 1).toNat)).sum : Nat) : Int)
      = ((gramSizes.filter (fun i => i ≤ n)).map (fun i => n - i + 1)).sum := by
  induction gramSizes with
  | nil => rfl
  | cons i rest ih =>
    rw [List.map_cons, List.sum_cons, Nat.cast_add, ih]
    by_cases hi : i ≤ n
    · rw [List.filter_cons_of_pos (by simpa using hi), List.map_cons, List.sum_cons]
      have : (((n - i + 1).toNat : Nat) : Int) = n - i + 1 := by omega
      rw [this]
    · rw [List.filter_cons_of_neg (by simpa using hi)]
      have : (((n - i + 1).toNat : Nat) : Int) = 0 := by omega
      rw [this]
      simp

theorem fillSlice_aux {E : Type} (l pre suf : List E) (hs : suf.length = l.length) :
    l.foldlM (fun (st : Array E × Nat) x =>
        (writeIndex st.1 st.2 x).map (fun ys => (ys, st.2 + 1)))
        ((pre ++ suf).toArray, pre.length)
      = some ((pre ++ l).toArray, pre.length + l.length) := by
  induction l generalizing pre suf with
  | nil =>
    have : suf = [] := List.length_eq_zero.mp hs
    subst this
    rfl
  | cons x rest ih =>
    rcases suf with _ | ⟨y, suf'⟩
    · simp at hs
    · have hlen : pre.length < ((pre ++ y :: suf').toArray).size := by simp
      have hset : ((pre ++ y :: suf').toArray).setD pre.length x
          = ((pre ++ [x]) ++ suf').toArray := by
        apply Array.ext'
        simp [Array.setD]
      rw [List.foldlM_cons, writeIndex_eq _ _ hlen, hset]
      have hs' : suf'.length = rest.length := by simpa using hs
      have := ih (pre ++ [x]) suf' hs'
      simp only [List.length_append, List.length_singleton, List.append_assoc,
        List.singleton_append] at this
      simp only [Option.map_some', Option.some_bind, Option.bind_eq_bind, List.append_assoc,
        List.singleton_append, List.length_cons]
      rw [this]
      congr 2
      omega

/-- Filling a slice that has as many slots as the sequence has values writes
every slot, without a panic. -/
theorem fillSlice_eq {E : Type} (d : E) (l : List E) :
    fillSlice (mkArray l.length d) l = some l.toArray := by
  unfold fillSlice
  have h := fillSlice_aux l [] (List.replicate l.length d) (by simp)
  have e : mkArray l.length d = ([] ++ List.replicate l.length d).toArray := by
    apply Array.ext'
    simp
  rw [e]
  simp only [List.length_nil] at h
  rw [h]
  rfl

end Ngrams

/-! ## The map of package `main` -/

section RootMap

variable {T : Type}

theorem writeLoop_aux {E : Type} (a : E) (suf pre : List E) :
    (List.range' pre.length suf.length).foldlM (fun acc i => writeIndex acc i a)
        (pre ++ suf).toArray
      = some (pre ++ List.replicate suf.length a).toArray := by
  induction suf generalizing pre with
  | nil => simp
  | cons y rest ih =>
    have hlen : pre.length < ((pre ++ y :: rest).toArray).size := by simp
    have hset : ((pre ++ y :: rest).toArray).setD pre.length a
        = ((pre ++ [a]) ++ rest).toArray := by
      apply Array.ext'
      simp [Array.setD]
    have := ih (pre ++ [a])
    simp only [List.length_append, List.length_singleton, List.append_assoc,
      List.singleton_append] at this
    rw [List.length_cons, List.range'_succ, List.foldlM_cons, writeIndex_eq _ _ hlen, hset]
    simp only [Option.some_bind, Option.bind_eq_bind, List.append_assoc,
      List.singleton_append, List.replicate_succ]
    exact this

theorem makeMaps_eq (slots : Nat) :
    Main.makeMaps (mkArray slots (none : Option (GoMap Key T)))
      = some (mkArray slots (some GoMap.empty)) := by
  unfold Main.makeMaps
  have h := writeLoop_aux (some (GoMap.empty : GoMap Key T)) (List.replicate slots none) []
  simp only [List.length_nil, List.length_replicate, List.nil_append] at h
  rw [Array.size_mkArray, List.range_eq_range']
  exact h

/-- The constructor of package `main` returns when `maxNgramSize` is at least 1,
with `4*maxNgramSize - 4` maps in `remaining`. -/
theorem Main_NewFastNgramsMap_eq [Inhabited T] (maxNgramSize n : Int)
    (h : 1 ≤ maxNgramSize) :
    (Main.NewFastNgramsMap maxNgramSize n : Option (Main.FastNgramsMap T))
      = some (Main.emptyMap (4 * maxNgramSize - 4).toNat) := by
  have hd : (default : Option (GoMap Key T)) = none := rfl
  unfold Main.NewFastNgramsMap
  rw [clearFlags_makeSlice, clearFlags_makeSlice]
  unfold makeSliceInt
  rw [if_pos (by omega), hd]
  simp only [Option.some_bind, Option.bind_eq_bind]
  rw [makeMaps_eq]
  rfl

theorem Main_Put_unigram (m : Main.FastNgramsMap T) (b0 : Byte) (v : T)
    (h1 : m.unigrams.size = 256) (h4 : m.bigramsSet.size = 256 * 256) :
    Main.Put m [b0] v = some { m with unigrams := m.unigrams.setD b0.val v,
                                      bigramsSet := m.bigramsSet.setD b0.val true } := by
  have hb := b0.isLt
  simp only [Main.Put]
  rw [writeIndex_eq _ _ (by omega : b0.val < m.unigrams.size),
    writeIndex_eq _ _ (by omega : b0.val < m.bigramsSet.size)]
  rfl

/-- On a fresh map of package `main`, `Put` with a 1-byte key leaves the unigram
flag unset, so that `Get` of the key is `(zero, false)`, and sets the bigram flag
of the same index, so that the 2-byte key made of the byte and a zero byte goes
from absent to present. -/
theorem Main_Put_unigram_fresh [Inhabited T] (slots : Nat) (b0 : Byte) (v : T) :
    ∃ m1, Main.Put (Main.emptyMap slots : Main.FastNgramsMap T) [b0] v = some m1 ∧
      Main.Get m1 [b0] = some (default, false) ∧
      Main.Get (Main.emptyMap slots : Main.FastNgramsMap T) [b0, 0] = some (default, false) ∧
      Main.Get m1 [b0, 0] = some (default, true) := by
  have hd : (default : Bool) = false := rfl
  have hb := b0.isLt
  have hb2 : b0.val < 256 * 256 := by omega
  have hkey : bigramKey b0 0 = b0.val := by
    rw [bigramKey_eq]
    simp
  refine ⟨_, Main_Put_unigram (Main.emptyMap slots) b0 v (size_makeSlice 256)
    (size_makeSlice (256 * 256)), ?_, ?_, ?_⟩
  · simp only [Main.Get, Main.emptyMap, readIndex_makeSlice hb, hd]
    rfl
  · simp only [Main.Get, Main.emptyMap, hkey, readIndex_makeSlice hb2, hd]
    rfl
  · have hs : b0.val < (makeSlice (256 * 256) : Array Bool).size := by
      rw [size_makeSlice]
      exact hb2
    simp only [Main.Get, Main.emptyMap, hkey, readIndex_setD_self _ _ hs,
      readIndex_makeSlice hb2]
    rfl

/-- On a fresh map of package `main` with `slots` maps in `remaining`, `Put` and
`Get` panic for every key of 5 bytes or more whose length is not below `slots`. -/
theorem Main_long_key_out_of_range [Inhabited T] (slots : Nat) (k : Key) (v : T)
    (h5 : 5 ≤ k.length) (hk : slots ≤ k.length) :
    Main.Put (Main.emptyMap slots : Main.FastNgramsMap T) k v = none ∧
      Main.Get (Main.emptyMap slots : Main.FastNgramsMap T) k = none := by
  have hread : readIndex (Main.emptyMap slots : Main.FastNgramsMap T).remaining k.length
      = none := by
    simp only [readIndex, Main.emptyMap]
    rw [Array.getElem?_eq_none_iff]
    simpa using hk
  rcases k with _ | ⟨b0, _ | ⟨b1, _ | ⟨b2, _ | ⟨b3, _ | ⟨b4, rest⟩⟩⟩⟩⟩
  · simp at h5
  · simp at h5
  · simp at h5
  · simp at h5
  · simp at h5
  · constructor
    · simp only [Main.Put, hread]
      rfl
    · simp only [Main.Get, hread]
      rfl

end RootMap

/-! ## The claims -/

section Claims

variable {T : Type}

/-- Claim C1: on every well-formed map, for every key of byte length at least 1
and every value, `Put(k, v)` returns and afterwards `Get(k)` is `(v, true)` and
`Has(k)` is `true`; the previous content of the map and the value are arbitrary. -/
theorem C1_put_then_get [Inhabited T] (m : FastNgramsMap T) (k : Key) (v : T)
    (h : WF m) (_hk : 1 ≤ k.length) :
    ∃ m', Put m k v = some m' ∧ Get m' k = some (v, true) ∧ Has m' k = some true := by
  obtain ⟨m', hp, -⟩ := Put_wf m k v h
  refine ⟨m', hp, Get_Put_self h hp, ?_⟩
  rw [Has_eq, Get_Put_self h hp]
  rfl

theorem C1_put_then_get_witness :
    WF (emptyMap : FastNgramsMap Int) ∧ 1 ≤ ([97, 98, 99] : Key).length ∧
      ∃ m', Put (emptyMap : FastNgramsMap Int) [97, 98, 99] 0 = some m' ∧
        Get m' [97, 98, 99] = some (0, true) ∧ Has m' [97, 98, 99] = some true :=
  ⟨emptyMap_wf, by decide, C1_put_then_get emptyMap [97, 98, 99] 0 emptyMap_wf (by decide)⟩

/-- Claim C2: on a fresh map, and after any sequence of `Put` calls with
non-empty keys, a key of byte length at least 1 that was never passed to `Put`
is absent: `Get` is `(zero value, false)` and `Has` is `false`. -/
theorem C2_absent_before_insertion [Inhabited T] (size : Int) (calls : List (Key × T))
    (k : Key) (_hc : NonEmptyKeys calls) (_hk : 1 ≤ k.length) (hn : k ∉ keysOf calls) :
    ∃ m, freshPuts size calls = some m ∧ Get m k = some (default, false) ∧
      Has m k = some false := by
  obtain ⟨m, hm, -, hS, -⟩ := puts_present calls (emptyMap : FastNgramsMap T) ∅ emptyMap_wf
    (by intro q; rw [Has_eq, Get_emptyMap]; simp) (by rw [Len_emptyMap]; rfl)
  obtain ⟨m2, hm2, -, hg, -⟩ := freshPuts_agree size 0 calls
  rw [freshPuts_eq] at hm2 ⊢
  rw [hm] at hm2
  cases hm2
  have hhas : Has m k = some false := by
    rw [hS k]
    simp [hn]
  have hsnd : (((NewDefaultMap 0).puts calls).Get k).2 = false := by
    rw [Has_eq, hg k] at hhas
    simpa using hhas
  refine ⟨m, hm, ?_, hhas⟩
  rw [hg k, DefaultMap.Get, GoMap.index_absent _ _ hsnd]

theorem C2_absent_before_insertion_witness :
    NonEmptyKeys exampleCalls ∧ 1 ≤ ([97, 98, 99, 100, 101, 102] : Key).length ∧
      [97, 98, 99, 100, 101, 102] ∉ keysOf exampleCalls ∧
      ∃ m, freshPuts 0 exampleCalls = some m ∧
        Get m [97, 98, 99, 100, 101, 102] = some (default, false) ∧
        Has m [97, 98, 99, 100, 101, 102] = some false :=
  ⟨by decide, by decide, by decide,
    C2_absent_before_insertion 0 exampleCalls [97, 98, 99, 100, 101, 102]
      (by decide) (by decide) (by decide)⟩

/-- Claim C3: starting from a fresh map, after any sequence of `Put` calls
whose keys have byte length at least 1, `Len()` is the number of distinct keys
of the sequence, whatever their lengths. -/
theorem C3_len_counts_distinct_keys [Inhabited T] (size : Int) (calls : List (Key × T))
    (_hc : NonEmptyKeys calls) :
    ∃ m, freshPuts size calls = some m ∧ Len m = distinctKeys calls := by
  obtain ⟨m, hm, -, -, hl⟩ := puts_present calls (emptyMap : FastNgramsMap T) ∅ emptyMap_wf
    (by intro q; rw [Has_eq, Get_emptyMap]; simp) (by rw [Len_emptyMap]; rfl)
  refine ⟨m, by rw [freshPuts_eq]; exact hm, ?_⟩
  rw [hl, Finset.empty_union, List.card_toFinset]
  rfl

theorem C3_len_counts_distinct_keys_witness :
    NonEmptyKeys (exampleCalls ++ [([97], 99)]) ∧
      ∃ m, freshPuts 0 (exampleCalls ++ [([97], 99)]) = some m ∧
        Len m = distinctKeys (exampleCalls ++ [([97], 99)]) :=
  ⟨by decide, C3_len_counts_distinct_keys 0 (exampleCalls ++ [([97], 99)]) (by decide)⟩

/-- Claim C4: on every well-formed map, for distinct keys `k` and `q` of byte
length at least 1 (of equal or different lengths, whatever bytes they share),
`Put(k, v)` returns and leaves `Get(q)` and `Has(q)` unchanged. -/
theorem C4_put_frames_other_keys [Inhabited T] (m : FastNgramsMap T) (k q : Key) (v : T)
    (h : WF m) (_hk : 1 ≤ k.length) (_hq : 1 ≤ q.length) (hne : q ≠ k) :
    ∃ m', Put m k v = some m' ∧ Get m' q = Get m q ∧ Has m' q = Has m q := by
  obtain ⟨m', hp, -⟩ := Put_wf m k v h
  refine ⟨m', hp, Get_Put_ne h hp hne, ?_⟩
  rw [Has_eq, Has_eq, Get_Put_ne h hp hne]

theorem C4_put_frames_other_keys_witness :
    WF (emptyMap : FastNgramsMap Int) ∧ 1 ≤ ([97, 0] : Key).length ∧
      1 ≤ ([97] : Key).length ∧ ([97] : Key) ≠ [97, 0] ∧
      ∃ m', Put (emptyMap : FastNgramsMap Int) [97, 0] 5 = some m' ∧
        Get m' [97] = Get (emptyMap : FastNgramsMap Int) [97] ∧
        Has m' [97] = Has (emptyMap : FastNgramsMap Int) [97] :=
  ⟨emptyMap_wf, by decide, by decide, by decide,
    C4_put_frames_other_keys emptyMap [97, 0] [97] 5 emptyMap_wf (by decide) (by decide)
      (by decide)⟩

/-- Claim C5: in every state reached from a fresh map by `Put` calls with
non-empty keys, for every key of byte length at least 1, `Has(k)` returns;
`Put(k, v)` leaves `Len()` unchanged when `Has(k)` was true and adds exactly one
when `Has(k)` was false. -/
theorem C5_len_update_or_insert [Inhabited T] (size : Int) (calls : List (Key × T))
    (k : Key) (v : T) (_hc : NonEmptyKeys calls) (_hk : 1 ≤ k.length) :
    ∃ m m', freshPuts size calls = some m ∧ Put m k v = some m' ∧
      (Has m k = some true ∨ Has m k = some false) ∧
      (Has m k = some true → Len m' = Len m) ∧
      (Has m k = some false → Len m' = Len m + 1) := by
  obtain ⟨m, hm, h⟩ := puts_wf calls (emptyMap : FastNgramsMap T) emptyMap_wf
  obtain ⟨m', hp, -⟩ := Put_wf m k v h
  obtain ⟨r, hr⟩ := Get_total m k h
  refine ⟨m, m', by rw [freshPuts_eq]; exact hm, hp, ?_, ?_, ?_⟩
  · rw [Has_eq, hr]
    obtain ⟨x, b⟩ := r
    cases b
    · exact Or.inr rfl
    · exact Or.inl rfl
  · intro hh
    rw [Len_Put h hp, if_pos hh, Nat.add_zero]
  · intro hh
    rw [Len_Put h hp, if_neg (by rw [hh]; simp)]

theorem C5_len_update_or_insert_witness :
    NonEmptyKeys exampleCalls ∧ 1 ≤ ([97] : Key).length ∧
      ∃ m m', freshPuts 0 exampleCalls = some m ∧ Put m [97] 99 = some m' ∧
        (Has m [97] = some true ∨ Has m [97] = some false) ∧
        (Has m [97] = some true → Len m' = Len m) ∧
        (Has m [97] = some false → Len m' = Len m + 1) :=
  ⟨by decide, by decide, C5_len_update_or_insert 0 exampleCalls [97] 99 (by decide) (by decide)⟩

/-- Claim C6: on every well-formed map and for every key, `Get(k)` returns a
pair and `Has(k)` returns exactly the boolean of that pair. -/
theorem C6_has_is_get_found [Inhabited T] (m : FastNgramsMap T) (k : Key) (h : WF m) :
    ∃ x ok, Get m k = some (x, ok) ∧ Has m k = some ok := by
  obtain ⟨⟨x, ok⟩, hr⟩ := Get_total m k h
  exact ⟨x, ok, hr, by rw [Has_eq, hr]; rfl⟩

theorem C6_has_is_get_found_witness :
    WF (emptyMap : FastNgramsMap Int) ∧
      ∃ x ok, Get (emptyMap : FastNgramsMap Int) [97, 98] = some (x, ok) ∧
        Has (emptyMap : FastNgramsMap Int) [97, 98] = some ok :=
  ⟨emptyMap_wf, C6_has_is_get_found emptyMap [97, 98] emptyMap_wf⟩

/-- Claim C7: a fresh `FastNgramsMap` and a fresh `DefaultMap`, built with any
size hints and given the same sequence of `Put` calls with keys of byte length
at least 1, return the same `Get(q)`, `Has(q)` and `Len()` for every key `q` of
byte length at least 1. -/
theorem C7_interchangeable_with_default_map [Inhabited T] (size size' : Int)
    (calls : List (Key × T)) (q : Key) (_hc : NonEmptyKeys calls) (_hq : 1 ≤ q.length) :
    ∃ m, freshPuts size calls = some m ∧
      Get m q = some (((NewDefaultMap size').puts calls).Get q) ∧
      Has m q = some (((NewDefaultMap size').puts calls).Has q) ∧
      Len m = ((NewDefaultMap size').puts calls).Len := by
  obtain ⟨m, hm, -, hg, hl⟩ := freshPuts_agree size size' calls
  refine ⟨m, hm, hg q, ?_, hl⟩
  rw [Has_eq, hg q]
  rfl

theorem C7_interchangeable_with_default_map_witness :
    NonEmptyKeys exampleCalls ∧ 1 ≤ ([97, 98] : Key).length ∧
      ∃ m, freshPuts 3 exampleCalls = some m ∧
        Get m [97, 98] = some (((NewDefaultMap 7).puts exampleCalls).Get [97, 98]) ∧
        Has m [97, 98] = some (((NewDefaultMap 7).puts exampleCalls).Has [97, 98]) ∧
        Len m = ((NewDefaultMap 7).puts exampleCalls).Len :=
  ⟨by decide, by decide,
    C7_interchangeable_with_default_map 3 7 exampleCalls [97, 98] (by decide) (by decide)⟩

/-- Claim C8: the end-to-end example. On a fresh map of integers, after
`Put("a",10)`, `Put("ab",20)`, `Put("abc",30)`, `Put("abcd",40)`, `Put("abcde",50)`:
`Len()` is 5, `Get("a")` is `(10,true)`, `Get("abc")` is `(30,true)`,
`Get("abcdef")` is `(0,false)`; after a further `Put("a",99)`: `Len()` is 5 and
`Get("a")` is `(99,true)`. -/
theorem C8_end_to_end_example (size : Int) :
    ∃ m5 m6 : FastNgramsMap Int, freshPuts size exampleCalls = some m5 ∧ Len m5 = 5 ∧
      Get m5 [97] = some (10, true) ∧ Get m5 [97, 98, 99] = some (30, true) ∧
      Get m5 [97, 98, 99, 100, 101, 102] = some (0, false) ∧
      Put m5 [97] 99 = some m6 ∧ Len m6 = 5 ∧ Get m6 [97] = some (99, true) := by
  obtain ⟨m5, hm, h, hg, hl⟩ := freshPuts_agree size 0 exampleCalls
  obtain ⟨m6, hp, -⟩ := Put_wf m5 [97] 99 h
  have e0 : ((NewDefaultMap 0).puts exampleCalls).Len = 5 := by decide
  have e1 : ((NewDefaultMap 0).puts exampleCalls).Get [97] = (10, true) := by decide
  have e2 : ((NewDefaultMap 0).puts exampleCalls).Get [97, 98, 99] = (30, true) := by decide
  have e3 : ((NewDefaultMap 0).puts exampleCalls).Get [97, 98, 99, 100, 101, 102]
      = (0, false) := by decide
  have g1 : Get m5 [97] = some (10, true) := by rw [hg, e1]
  have l5 : Len m5 = 5 := by rw [hl, e0]
  refine ⟨m5, m6, hm, l5, g1, by rw [hg, e2], by rw [hg, e3], hp, ?_, Get_Put_self h hp⟩
  have hh : Has m5 [97] = some true := by rw [Has_eq, g1]; rfl
  rw [Len_Put h hp, if_pos hh, l5]

/-- Claim C9: for every size hint and every state reached from the fresh map
by `Put` calls with non-empty keys, `Put` and `Get` return for every key of byte
length at least 1 (no index-out-of-range panic): the index of a 1-byte key is
below the length of the two 256-slot slices, the index of a 2-byte key is below
the length of the two 65536-slot slices, and a key of any other length is
stored in, and found in, the long-key container whatever the hint was. -/
theorem C9_put_get_never_fail [Inhabited T] (size : Int) (calls : List (Key × T))
    (k : Key) (v : T) (_hc : NonEmptyKeys calls) (_hk : 1 ≤ k.length) :
    ∃ m m', freshPuts size calls = some m ∧ Put m k v = some m' ∧
      (∃ r, Get m k = some r) ∧ Get m' k = some (v, true) ∧
      (∀ b0 : Byte, b0.val < m.unigrams.size ∧ b0.val < m.unigramsSet.size) ∧
      (∀ b0 b1 : Byte, bigramKey b0 b1 < m.bigrams.size ∧
        bigramKey b0 b1 < m.bigramsSet.size) ∧
      (5 ≤ k.length → m'.remaining = m.remaining.store k v) := by
  obtain ⟨m, hm, h⟩ := puts_wf calls (emptyMap : FastNgramsMap T) emptyMap_wf
  obtain ⟨m', hp, -⟩ := Put_wf m k v h
  refine ⟨m, m', by rw [freshPuts_eq]; exact hm, hp, Get_total m k h, Get_Put_self h hp,
    ?_, ?_, ?_⟩
  · intro b0
    have hb := b0.isLt
    obtain ⟨h1, h2, -, -⟩ := h
    omega
  · intro b0 b1
    have hb := bigramKey_lt b0 b1
    obtain ⟨-, -, h3, h4⟩ := h
    omega
  · intro h5
    rcases k with _ | ⟨b0, _ | ⟨b1, _ | ⟨b2, _ | ⟨b3, _ | ⟨b4, rest⟩⟩⟩⟩⟩
    · simp at h5
    · simp at h5
    · simp at h5
    · simp at h5
    · simp at h5
    · cases hp
      rfl

theorem C9_put_get_never_fail_witness :
    NonEmptyKeys exampleCalls ∧ 1 ≤ ([97, 98, 99, 100, 101, 102, 103] : Key).length ∧
      ∃ m m', freshPuts 0 exampleCalls = some m ∧
        Put m [97, 98, 99, 100, 101, 102, 103] 7 = some m' ∧
        (∃ r, Get m [97, 98, 99, 100, 101, 102, 103] = some r) ∧
        Get m' [97, 98, 99, 100, 101, 102, 103] = some (7, true) ∧
        (∀ b0 : Byte, b0.val < m.unigrams.size ∧ b0.val < m.unigramsSet.size) ∧
        (∀ b0 b1 : Byte, bigramKey b0 b1 < m.bigrams.size ∧
          bigramKey b0 b1 < m.bigramsSet.size) ∧
        (5 ≤ ([97, 98, 99, 100, 101, 102, 103] : Key).length →
          m'.remaining = m.remaining.store [97, 98, 99, 100, 101, 102, 103] 7) :=
  ⟨by decide, by decide,
    C9_put_get_never_fail 0 exampleCalls [97, 98, 99, 100, 101, 102, 103] 7
      (by decide) (by decide)⟩

/-- Claim C10, refuted as stated: on the fresh map of integers `Put("", 7)`
does not fail. It returns a map in which the empty key is stored: `Get("")`
goes from `(0, false)` to `(7, true)` and `Len()` from 0 to 1. -/
theorem C10_empty_key_counterexample :
    ∃ m0 m' : FastNgramsMap Int, NewFastNgramsMap 0 = some m0 ∧ Put m0 [] 7 = some m' ∧
      Get m0 [] = some (0, false) ∧ Get m' [] = some (7, true) ∧
      Len m0 = 0 ∧ Len m' = 1 := by
  refine ⟨emptyMap, { (emptyMap : FastNgramsMap Int) with remaining := [([], 7)] },
    NewFastNgramsMap_eq 0, rfl, Get_emptyMap [], rfl, Len_emptyMap, ?_⟩
  have hp : Put (emptyMap : FastNgramsMap Int) [] 7
      = some { (emptyMap : FastNgramsMap Int) with remaining := [([], 7)] } := rfl
  have hh : ¬ Has (emptyMap : FastNgramsMap Int) [] = some true := by
    rw [Has_eq, Get_emptyMap]
    simp
  rw [Len_Put emptyMap_wf hp, if_neg hh, Len_emptyMap]

/-- Claim C10, as the code has it: `Put` with a key of length 0 does not fail
and takes the `default` branch of the `switch`: the value is stored under the
empty key in the long-key container and nothing else changes, so that a later
`Get("")` returns `(v, true)` and `Len()` grows by one when the empty key was
absent and is unchanged when it was present. -/
theorem C10_empty_key_goes_to_long_tier [Inhabited T] (m : FastNgramsMap T) (v : T) :
    Put m [] v = some { m with remaining := m.remaining.store [] v } ∧
      Get { m with remaining := m.remaining.store [] v } [] = some (v, true) ∧
      Len { m with remaining := m.remaining.store [] v }
        = Len m + (if Has m [] = some true then 0 else 1) := by
  refine ⟨rfl, ?_, ?_⟩
  · simp only [Get, GoMap.index_store_self]
  · rw [Has_eq, Len_eq, Len_eq]
    simp only [Get, Option.map, GoMap.len_store_index _ _ v, Option.some.injEq]
    omega

/-- Claim C11: the tier of a key is selected by its byte length alone. On every
well-formed map `Put(k, v)` with a key of byte length at least 1 returns, writes
the storage of the tier of `len(k)` and leaves the storage of the four other
tiers as it was: the unigram slices change only for length 1, the bigram
slices only for length 2, the trigram container only for length 3, the
quadrigram container only for length 4, the long-key container only for
length 5 or more. A 3-byte key goes to the trigram container under its packed
and multiplied key, whatever characters its bytes encode. -/
theorem C11_put_writes_one_tier (m : FastNgramsMap T) (k : Key) (v : T) (h : WF m)
    (_hk : 1 ≤ k.length) :
    ∃ m', Put m k v = some m' ∧
      (k.length ≠ 1 → m'.unigrams = m.unigrams ∧ m'.unigramsSet = m.unigramsSet) ∧
      (k.length ≠ 2 → m'.bigrams = m.bigrams ∧ m'.bigramsSet = m.bigramsSet) ∧
      (k.length ≠ 3 → m'.trigrams = m.trigrams) ∧
      (k.length ≠ 4 → m'.quadrigrams = m.quadrigrams) ∧
      (k.length < 5 → m'.remaining = m.remaining) ∧
      (∀ b0, k = [b0] → m'.unigrams = m.unigrams.setD b0.val v ∧
        m'.unigramsSet = m.unigramsSet.setD b0.val true) ∧
      (∀ b0 b1, k = [b0, b1] → m'.bigrams = m.bigrams.setD (bigramKey b0 b1) v ∧
        m'.bigramsSet = m.bigramsSet.setD (bigramKey b0 b1) true) ∧
      (∀ b0 b1 b2, k = [b0, b1, b2] →
        m'.trigrams = m.trigrams.store (trigramKey b0 b1 b2) v) ∧
      (∀ b0 b1 b2 b3, k = [b0, b1, b2, b3] →
        m'.quadrigrams = m.quadrigrams.store (quadrigramKey b0 b1 b2 b3) v) ∧
      (5 ≤ k.length → m'.remaining = m.remaining.store k v) := by
  rcases k with _ | ⟨b0, _ | ⟨b1, _ | ⟨b2, _ | ⟨b3, _ | ⟨b4, rest⟩⟩⟩⟩⟩
  · simp at _hk
  · refine ⟨_, Put_unigram m b0 v h, ?_⟩
    simp
  · refine ⟨_, Put_bigram m b0 b1 v h, ?_⟩
    simp
  · refine ⟨_, rfl, ?_⟩
    simp
  · refine ⟨_, rfl, ?_⟩
    simp only [List.length_cons, List.length_nil, List.cons.injEq, and_true]
    refine ⟨by simp, by simp, by simp, by simp, by simp, by simp, by simp, by simp, ?_, by simp⟩
    rintro c0 c1 c2 c3 ⟨rfl, rfl, rfl, rfl⟩
    rfl
  · refine ⟨_, rfl, ?_⟩
    simp

theorem C11_put_writes_one_tier_witness :
    WF (emptyMap : FastNgramsMap Int) ∧ 1 ≤ ([228, 184, 173] : Key).length ∧
      ∃ m', Put (emptyMap : FastNgramsMap Int) [228, 184, 173] 1 = some m' ∧
        m'.unigramsSet = (emptyMap : FastNgramsMap Int).unigramsSet ∧
        m'.trigrams = (emptyMap : FastNgramsMap Int).trigrams.store
          (trigramKey 228 184 173) 1 := by
  obtain ⟨m', hp, h1, -, -, -, -, -, -, h3, -, -⟩ :=
    C11_put_writes_one_tier (emptyMap : FastNgramsMap Int) [228, 184, 173] 1 emptyMap_wf
      (by decide)
  exact ⟨emptyMap_wf, by decide, m', hp, (h1 (by decide)).2, h3 228 184 173 rfl⟩

/-- Claim C18: for every 3-byte key and every 4-byte key, the container key
that `Put` computes (with the literal 2654435761) is the container key that
`Get` computes (with the constant `prime`), and both are the bytes packed
least-significant-byte-first, `b0 + 2^8*b1 + 2^16*b2 (+ 2^24*b3)`, times
2654435761 modulo 2^32. -/
theorem C18_put_get_same_container_key (b0 b1 b2 b3 : Byte) :
    trigramKey b0 b1 b2 = trigramKeyGet b0 b1 b2 ∧
      trigramKeyGet b0 b1 b2
        = (b0.val + 2 ^ 8 * b1.val + 2 ^ 16 * b2.val) * 2654435761 % 2 ^ 32 ∧
      quadrigramKey b0 b1 b2 b3 = quadrigramKeyGet b0 b1 b2 b3 ∧
      quadrigramKeyGet b0 b1 b2 b3
        = (b0.val + 2 ^ 8 * b1.val + 2 ^ 16 * b2.val + 2 ^ 24 * b3.val) * 2654435761
            % 2 ^ 32 := by
  refine ⟨rfl, ?_, rfl, ?_⟩
  · rw [trigramKeyGet_eq]
    unfold trigramKey
    rw [pack3_eq]
    rfl
  · rw [quadrigramKeyGet_eq]
    unfold quadrigramKey
    rw [pack4_eq]
    rfl

/-- Claim C19: the key transform of each of the tiers 2, 3 and 4 is injective on
the keys of that length. The index of a 2-byte key is a 16-bit value and two
2-byte keys have the same index only when they are the same key; the container
key of a 3-byte key (of a 4-byte key) is a 32-bit value and two such keys have
the same container key only when they are the same key, in `Put` and in `Get`. -/
theorem C19_key_transforms_injective (a0 a1 a2 a3 b0 b1 b2 b3 : Byte) :
    bigramKey a0 a1 < 2 ^ 16 ∧ trigramKey a0 a1 a2 < 2 ^ 32 ∧
      quadrigramKey a0 a1 a2 a3 < 2 ^ 32 ∧
      (bigramKey a0 a1 = bigramKey b0 b1 ↔ [a0, a1] = [b0, b1]) ∧
      (trigramKey a0 a1 a2 = trigramKey b0 b1 b2 ↔ [a0, a1, a2] = [b0, b1, b2]) ∧
      (trigramKeyGet a0 a1 a2 = trigramKeyGet b0 b1 b2 ↔ [a0, a1, a2] = [b0, b1, b2]) ∧
      (quadrigramKey a0 a1 a2 a3 = quadrigramKey b0 b1 b2 b3
        ↔ [a0, a1, a2, a3] = [b0, b1, b2, b3]) ∧
      (quadrigramKeyGet a0 a1 a2 a3 = quadrigramKeyGet b0 b1 b2 b3
        ↔ [a0, a1, a2, a3] = [b0, b1, b2, b3]) := by
  have h3 : trigramKey a0 a1 a2 = trigramKey b0 b1 b2 ↔ [a0, a1, a2] = [b0, b1, b2] := by
    constructor
    · intro e
      obtain ⟨e0, e1, e2⟩ := trigramKey_inj e
      rw [e0, e1, e2]
    · intro e
      cases e
      rfl
  have h4 : quadrigramKey a0 a1 a2 a3 = quadrigramKey b0 b1 b2 b3
      ↔ [a0, a1, a2, a3] = [b0, b1, b2, b3] := by
    constructor
    · intro e
      obtain ⟨e0, e1, e2, e3⟩ := quadrigramKey_inj e
      rw [e0, e1, e2, e3]
    · intro e
      cases e
      rfl
  refine ⟨bigramKey_lt a0 a1, ?_, ?_, ?_, h3, ?_, h4, ?_⟩
  · exact Nat.mod_lt _ (by norm_num)
  · exact Nat.mod_lt _ (by norm_num)
  · constructor
    · intro e
      obtain ⟨e0, e1⟩ := bigramKey_inj e
      rw [e0, e1]
    · intro e
      cases e
      rfl
  · rw [trigramKeyGet_eq, trigramKeyGet_eq]
    exact h3
  · rw [quadrigramKeyGet_eq, quadrigramKeyGet_eq]
    exact h4

/-- Claim C20: `Put` calls to distinct keys commute. On every well-formed map,
for distinct keys `k1` and `k2` of byte length at least 1 and any values, the
two orders of `Put(k1, v1)` and `Put(k2, v2)` both return, and the two maps they
give have the same `Get` and `Has` for every key and the same `Len`. -/
theorem C20_puts_to_distinct_keys_commute [Inhabited T] (m : FastNgramsMap T)
    (k1 k2 : Key) (v1 v2 : T) (h : WF m) (_hk1 : 1 ≤ k1.length) (_hk2 : 1 ≤ k2.length)
    (hne : k1 ≠ k2) :
    ∃ m1 m12 m2 m21, Put m k1 v1 = some m1 ∧ Put m1 k2 v2 = some m12 ∧
      Put m k2 v2 = some m2 ∧ Put m2 k1 v1 = some m21 ∧
      (∀ q, Get m12 q = Get m21 q ∧ Has m12 q = Has m21 q) ∧ Len m12 = Len m21 := by
  obtain ⟨m1, hp1, hw1⟩ := Put_wf m k1 v1 h
  obtain ⟨m12, hp12, -⟩ := Put_wf m1 k2 v2 hw1
  obtain ⟨m2, hp2, hw2⟩ := Put_wf m k2 v2 h
  obtain ⟨m21, hp21, -⟩ := Put_wf m2 k1 v1 hw2
  have hget : ∀ q, Get m12 q = Get m21 q := by
    intro q
    by_cases hq2 : q = k2
    · subst hq2
      rw [Get_Put_self hw1 hp12, Get_Put_ne hw2 hp21 (Ne.symm hne), Get_Put_self h hp2]
    · by_cases hq1 : q = k1
      · subst hq1
        rw [Get_Put_ne hw1 hp12 hne, Get_Put_self h hp1, Get_Put_self hw2 hp21]
      · rw [Get_Put_ne hw1 hp12 hq2, Get_Put_ne h hp1 hq1, Get_Put_ne hw2 hp21 hq1,
          Get_Put_ne h hp2 hq2]
  refine ⟨m1, m12, m2, m21, hp1, hp12, hp2, hp21, ?_, ?_⟩
  · intro q
    exact ⟨hget q, by rw [Has_eq, Has_eq, hget q]⟩
  · rw [Len_Put hw1 hp12, Len_Put h hp1, Len_Put hw2 hp21, Len_Put h hp2]
    have e1 : Has m1 k2 = Has m k2 := by
      rw [Has_eq, Has_eq, Get_Put_ne h hp1 (Ne.symm hne)]
    have e2 : Has m2 k1 = Has m k1 := by
      rw [Has_eq, Has_eq, Get_Put_ne h hp2 hne]
    rw [e1, e2]
    omega

theorem C20_puts_to_distinct_keys_commute_witness :
    WF (emptyMap : FastNgramsMap Int) ∧ 1 ≤ ([97, 98, 99] : Key).length ∧
      1 ≤ ([99, 98, 97] : Key).length ∧ ([97, 98, 99] : Key) ≠ [99, 98, 97] ∧
      ∃ m1 m12 m2 m21, Put (emptyMap : FastNgramsMap Int) [97, 98, 99] 1 = some m1 ∧
        Put m1 [99, 98, 97] 2 = some m12 ∧
        Put (emptyMap : FastNgramsMap Int) [99, 98, 97] 2 = some m2 ∧
        Put m2 [97, 98, 99] 1 = some m21 ∧
        (∀ q, Get m12 q = Get m21 q ∧ Has m12 q = Has m21 q) ∧ Len m12 = Len m21 :=
  ⟨emptyMap_wf, by decide, by decide, by decide,
    C20_puts_to_distinct_keys_commute emptyMap [97, 98, 99] [99, 98, 97] 1 2 emptyMap_wf
      (by decide) (by decide) (by decide)⟩

/-- Claim C13, at the input that refutes it: on the text `"ab"` with the gram
sizes `[2, 1]`, `IterNgrams` yields `"ab"`, `"a"`, `"b"` and `GetNgrams` returns
them in that order; the lengths in runes are 2, 1, 1, which is not a
non-decreasing sequence. -/
theorem C13_longer_ngrams_first_on_unsorted_sizes :
    Utils.IterNgrams [97, 98] [2, 1] = some [[97, 98], [97], [98]] ∧
      Utils.GetNgrams [97, 98] [2, 1] = some #[[97, 98], [97], [98]] ∧
      Utils.runeLengths [[97, 98], [97], [98]] = [2, 1, 1] ∧
      ¬ List.Sorted (fun a b => a ≤ b) (Utils.runeLengths [[97, 98], [97], [98]]) := by
  refine ⟨by decide, by decide, by decide, by decide⟩

/-- Claim C14, at the input that refutes it: on the profile with the entries
`"a": 1` and `"b": 2` and with `n = 1`, `GetNgramsRanking` returns the two n-grams `"b"`, `"a"` and not
only the most frequent one. -/
theorem C14_ranking_ignores_n :
    Utils.GetNgramsRanking [([97], 1), ([98], 2)] 1 = some #[[98], [97]] ∧
      (#[[98], [97]] : Array Key).size = 2 := by
  refine ⟨by decide, by decide⟩

/-- Claim C15: for every text and every list of gram sizes that are at least 1,
`IterNgrams` yields its n-grams without a panic, `GetNgramsCount` is the number
of n-grams yielded, which is the sum over the sizes `i` not larger than the
rune count `n` of `n - i + 1`, and `GetNgrams` returns the slice of exactly
these n-grams: as long as the count, every slot written, no write out of
range. -/
theorem C15_count_is_number_of_ngrams (text : List Utils.Rune) (gramSizes : List Int)
    (h : ∀ i ∈ gramSizes, 1 ≤ i) :
    ∃ ngrams, Utils.IterNgrams text gramSizes = some ngrams ∧
      Utils.GetNgramsCount text gramSizes = (ngrams.length : Int) ∧
      Utils.GetNgramsCount text gramSizes
        = ((gramSizes.filter (fun i => i ≤ (text.length : Int))).map
            (fun i => (text.length : Int) - i + 1)).sum ∧
      Utils.GetNgrams text gramSizes = some ngrams.toArray := by
  have h0 : ∀ i ∈ gramSizes, 0 ≤ i := fun i hi => by have := h i hi; omega
  have hit := IterNgrams_eq text gramSizes h0
  have hlen := length_IterNgrams_list text gramSizes
  have hcount := GetNgramsCount_eq_sum text gramSizes
  refine ⟨_, hit, ?_, ?_, ?_⟩
  · rw [hcount, hlen]
  · rw [hcount, sum_toNat_eq_filter]
  · unfold Utils.GetNgrams
    rw [hit, hcount, ← hlen]
    simp only [makeSliceInt, Int.toNat_ofNat, Int.ofNat_nonneg, if_true]
    exact fillSlice_eq _ _

theorem C15_count_is_number_of_ngrams_witness :
    (∀ i ∈ ([1, 2, 3, 4] : List Int), 1 ≤ i) ∧
      ∃ ngrams, Utils.IterNgrams [97, 98, 99] [1, 2, 3, 4] = some ngrams ∧
        Utils.GetNgramsCount [97, 98, 99] [1, 2, 3, 4] = (ngrams.length : Int) ∧
        Utils.GetNgramsCount [97, 98, 99] [1, 2, 3, 4]
          = ((([1, 2, 3, 4] : List Int).filter
              (fun i => i ≤ (([97, 98, 99] : List Utils.Rune).length : Int))).map
              (fun i => (([97, 98, 99] : List Utils.Rune).length : Int) - i + 1)).sum ∧
        Utils.GetNgrams [97, 98, 99] [1, 2, 3, 4] = some ngrams.toArray :=
  ⟨by decide, C15_count_is_number_of_ngrams [97, 98, 99] [1, 2, 3, 4] (by decide)⟩

/-- Claim C16, at the input that refutes it: on the map of package `main` built
by `NewFastNgramsMap(5, 0)`, `Put("a", 10)` returns and afterwards `Get("a")` is
`(0, false)`, not `(10, true)`; the 2-byte key made of `'a'` and a zero byte,
absent before the call, is present after it. -/
theorem C16_root_put_unigram_sets_bigram_flag :
    ∃ m0 m1 : Main.FastNgramsMap Int, Main.NewFastNgramsMap 5 0 = some m0 ∧
      Main.Put m0 [97] 10 = some m1 ∧ Main.Get m1 [97] = some (0, false) ∧
      Main.Get m0 [97, 0] = some (0, false) ∧ Main.Get m1 [97, 0] = some (0, true) := by
  obtain ⟨m1, hp, h1, h2, h3⟩ :=
    Main_Put_unigram_fresh (4 * (5 : Int) - 4).toNat (97 : Byte) (10 : Int)
  exact ⟨_, m1, Main_NewFastNgramsMap_eq 5 0 (by decide), hp, h1, h2, h3⟩

/-- Claim C17, at the input that refutes it: on the map of package `main` built
by `NewFastNgramsMap(2, 0)`, `remaining` has 4 maps and the 8-byte key `F0 9F 98 80
F0 9F 98 80` (two characters of 4 bytes each) indexes it at 8: `Put` and `Get`
both panic. -/
theorem C17_root_long_key_index_out_of_range :
    ∃ m0 : Main.FastNgramsMap Int, Main.NewFastNgramsMap 2 0 = some m0 ∧
      m0.remaining.size = 4 ∧
      Main.Put m0 [240, 159, 152, 128, 240, 159, 152, 128] 1 = none ∧
      Main.Get m0 [240, 159, 152, 128, 240, 159, 152, 128] = none := by
  obtain ⟨hp, hg⟩ := Main_long_key_out_of_range (4 * (2 : Int) - 4).toNat
    ([240, 159, 152, 128, 240, 159, 152, 128] : Key) (1 : Int) (by decide) (by decide)
  refine ⟨_, Main_NewFastNgramsMap_eq 2 0 (by decide), ?_, hp, hg⟩
  simp only [Main.emptyMap, Array.size_mkArray]
  decide

end Claims

end FastNgrams
